import Mathlib

/-!
# Aureum: host/guest evaluation bridge

A shallow embedding of the Go package `aureum` (`utils.go`, `evaluator.go`, `types.go`,
`errors.go`, `config.go`) and the properties of its framing codec, lookup table,
guest-memory bridge and verdict decoder.

Conventions of the embedding:

* a byte is a `Fin 256`, a Go string a `String`, an unsigned 64-bit value a natural
  number, reduced modulo `2 ^ 64` or `2 ^ 32` wherever the Go code converts;
* a Go map is the list of its entries; the nested asset maps of a UTxO are listed in
  the order in which `range` happens to visit them;
* the guest module is a parameter: a state type with the effect of calling an
  exported function and of reading and writing its linear memory;
* the CBOR library calls are a parameter as well (`Codec`);
* every call of an exported guest function is appended to a log, so that what a run
  did to the guest can be stated;
* a run of `Evaluate` ends with a redeemer list, with a returned error, in
  `log.Fatalf` (the process exits, deferred calls do not run) or in a run-time panic
  (deferred calls run).
-/

namespace Aureum

/-! ## Bytes and the little-endian length header -/

/-- One octet. -/
abbrev Byte := Fin 256

/-- A Go byte slice. -/
abbrev Bytes := List Byte

/-- Conversion `byte(v)`: the low eight bits of `v`. -/
def byteOf (v : Nat) : Byte := ⟨v % 256, Nat.mod_lt v (by decide)⟩

/-- The eight bytes `binary.Write(&buf, binary.LittleEndian, uint64(v))` appends:
byte `k` is `byte(v >> (8 * k))`. -/
def putUint64LE (v : Nat) : Bytes :=
  [byteOf v, byteOf (v / 256), byteOf (v / 256 ^ 2), byteOf (v / 256 ^ 3),
   byteOf (v / 256 ^ 4), byteOf (v / 256 ^ 5), byteOf (v / 256 ^ 6), byteOf (v / 256 ^ 7)]

/-- Reading eight little-endian bytes back as a number (used only in proofs). -/
def getUint64LE (b : Bytes) : Nat :=
  (b.take 8).foldr (fun x acc => x.val + 256 * acc) 0

/-! ## `serializeUTxOs` (utils.go) -/

/-- One pass of the loop body of `serializeUTxOs` at index `i`.  Indexing a slice
past its end is a run-time panic in Go, modelled by `none`. -/
def serializeStep (utxosX utxosY : List Bytes) (buf : Bytes) (i : Nat) : Option Bytes :=
  match utxosX[i]?, utxosY[i]? with
  | some x, some y => some (buf ++ putUint64LE x.length ++ x ++ putUint64LE y.length ++ y)
  | _, _ => none

/-- Function `serializeUTxOs(utxosX, utxosY)` (utils.go 97-111): the count of `utxosX`, then for
`i = 0 .. len(utxosX) - 1` the length-prefixed `utxosX[i]` and `utxosY[i]`. -/
def serializeUTxOs (utxosX utxosY : List Bytes) : Option Bytes :=
  (List.range utxosX.length).foldlM (serializeStep utxosX utxosY) (putUint64LE utxosX.length)

/-- The group of one entry as the framing sentence words it: length, input bytes,
length, output bytes. -/
def frameGroup (x y : Bytes) : Bytes :=
  putUint64LE x.length ++ x ++ putUint64LE y.length ++ y

/-- The frame as the framing sentence words it: the count, then the groups in order. -/
def frameSpec (X Y : List Bytes) : Bytes :=
  putUint64LE X.length ++ ((X.zip Y).map (fun p => frameGroup p.1 p.2)).flatten

/-! ## Strings: `hex.EncodeToString` and the `%d` verb -/

/-- Entry `n` of the table `"0123456789abcdef"` used by `encoding/hex`. -/
def hexDigit (n : Nat) : Char :=
  ['0', '1', '2', '3', '4', '5', '6', '7', '8', '9', 'a', 'b', 'c', 'd', 'e', 'f'].getD n '0'

/-- The characters of `hex.EncodeToString(b)`: two table entries per byte,
high nibble first. -/
def hexChars : Bytes → List Char
  | [] => []
  | b :: rest => hexDigit (b.val / 16) :: hexDigit (b.val % 16) :: hexChars rest

/-- Function `hex.EncodeToString`. -/
def hexEncode (b : Bytes) : String := String.mk (hexChars b)

/-- The characters the `%d` verb prints for a Go `int`: a minus sign for a
negative value, then the decimal digits of the magnitude. -/
def decimalChars (i : Int) : List Char :=
  if i < 0 then '-' :: Nat.toDigits 10 i.natAbs else Nat.toDigits 10 i.natAbs

/-- Conversion `uint64(x)` of a signed 64-bit value. -/
def toUint64 (x : Int) : Nat := (x % 2 ^ 64).toNat

/-! ## A Go map as the list of its entries -/

/-- A Go `map[κ]ν`: its entries, keys pairwise distinct when built with `set`. -/
structure GoMap (κ ν : Type) where
  entries : List (κ × ν)
  deriving DecidableEq

namespace GoMap

variable {κ ν : Type}

/-- Expression `make(map[κ]ν)`. -/
def empty : GoMap κ ν := ⟨[]⟩

/-- Assignment on the entry list: replace the value bound to `k`, or add a new entry. -/
def setEntries [DecidableEq κ] : List (κ × ν) → κ → ν → List (κ × ν)
  | [], k, v => [(k, v)]
  | (k0, v0) :: rest, k, v => if k0 = k then (k, v) :: rest else (k0, v0) :: setEntries rest k v

/-- Statement `m[k] = v`. -/
def set [DecidableEq κ] (m : GoMap κ ν) (k : κ) (v : ν) : GoMap κ ν := ⟨setEntries m.entries k v⟩

/-- Lookup on the entry list. -/
def getEntries [DecidableEq κ] : List (κ × ν) → κ → Option ν
  | [], _ => none
  | (k0, v0) :: rest, k => if k0 = k then some v0 else getEntries rest k

/-- Expression `v, exists := m[k]`. -/
def get? [DecidableEq κ] (m : GoMap κ ν) (k : κ) : Option ν := getEntries m.entries k

/-- Expression `len(m)`. -/
def size (m : GoMap κ ν) : Nat := m.entries.length

end GoMap

/-! ## Data model -/

/-- Fields of `TransactionInput.TransactionInput` that the bridge reads. -/
structure TransactionInput where
  TransactionId : Bytes
  Index : Int
  deriving DecidableEq

/-- Type `Policy.PolicyId`. -/
structure PolicyId where
  Value : String
  deriving DecidableEq

/-- An `AssetName.AssetName`, seen through the one method the bridge calls on it. -/
structure AssetName where
  HexString : String
  deriving DecidableEq

/-- What `Output.GetAmount()` exposes: `GetCoin()` and `GetAssets()`.  The nested Go
maps are listed in the order in which `range` visits them. -/
structure Amount where
  Coin : Int
  Assets : List (PolicyId × List (AssetName × Int))
  deriving DecidableEq

/-- What the getters of `TransactionOutput.TransactionOutput` return.  The field
`Datum` holds the outcome of `MarshalCBOR` on a non-nil datum (`none` in the inner
option stands for a marshalling error); the field `ScriptRef` holds `Script.Script`
of a non-nil script reference (`none` in the inner option stands for a nil slice). -/
structure TransactionOutput where
  Address : String
  Amount : Amount
  DatumHash : Option Bytes
  Datum : Option (Option Bytes)
  ScriptRef : Option (Option Bytes)
  deriving DecidableEq

/-- Type `apolloUTxO.UTxO`. -/
structure ApolloUTxO where
  Input : TransactionInput
  Output : TransactionOutput
  deriving DecidableEq

/-- Type `ScriptRef` (types.go). -/
structure ScriptRef where
  ScriptType : String
  Script : String
  deriving DecidableEq

/-- Type `UTxO` (types.go). -/
structure UTxO where
  Address : String
  TxHash : String
  OutputIndex : Nat
  DatumHash : Option String
  Datum : Option String
  ScriptRef : Option ScriptRef
  Assets : GoMap String Nat
  deriving DecidableEq

/-- Type `Budget` (types.go). -/
structure Budget where
  Mem : Nat
  CPU : Nat
  deriving DecidableEq

/-- Type `EvalError` (types.go). -/
structure EvalError where
  ErrorType : String
  Budget : Budget
  DebugTrace : List String
  deriving DecidableEq

/-- Type `EvaluatorConfig` (config.go), without the module path. -/
structure EvaluatorConfig where
  CostModels : Bytes
  MaxTxExSteps : Nat
  MaxTxExMem : Nat
  ZeroTime : Nat
  ZeroSlot : Nat
  SlotLength : Nat
  deriving DecidableEq

/-- The part of `Transaction.Transaction` that `Evaluate` reads:
`tx.TransactionBody.Inputs`. -/
structure Transaction where
  Inputs : List TransactionInput
  deriving DecidableEq

/-! ## `prepareAssetMap` and `prepareUTxO` (utils.go) -/

/-- The inner loop of `prepareAssetMap` over one policy's asset group. -/
def addAssetGroup (assetMap : GoMap String Nat) (policyId : PolicyId)
    (assetGroup : List (AssetName × Int)) : GoMap String Nat :=
  assetGroup.foldl
    (fun m entry => m.set (policyId.Value ++ entry.1.HexString) (toUint64 entry.2)) assetMap

/-- Function `prepareAssetMap` (utils.go 29-42). -/
def prepareAssetMap (bfUtxo : ApolloUTxO) : GoMap String Nat :=
  let assets := bfUtxo.Output.Amount.Assets
  let assetMap := (GoMap.empty : GoMap String Nat).set "lovelace" (toUint64 bfUtxo.Output.Amount.Coin)
  assets.foldl (fun m group => addAssetGroup m group.1 group.2) assetMap

/-- The `(policy, asset-name)` pairs found on a UTxO with their quantities, in
iteration order. -/
def assetPairs (bfUtxo : ApolloUTxO) : List (PolicyId × AssetName × Int) :=
  (bfUtxo.Output.Amount.Assets.map (fun group => group.2.map (fun entry => (group.1, entry.1, entry.2)))).flatten

/-- The identifier of a pair: the policy identifier followed by the hex asset name. -/
def assetId (p : PolicyId × AssetName × Int) : String := p.1.Value ++ p.2.1.HexString

/-- Function `prepareUTxO` (utils.go 45-94).  Its error result is always nil, so the model returns
the record alone. -/
def prepareUTxO (apolloUTxO : ApolloUTxO) (assetMap : GoMap String Nat) : UTxO :=
  let datumHashStr : Option String :=
    match apolloUTxO.Output.DatumHash with
    | none => none
    | some payload =>
      let str := hexEncode payload
      if str ≠ "" then some str else none
  let datumStr : Option String :=
    match apolloUTxO.Output.Datum with
    | some (some datumCbor) =>
      if datumCbor.length > 0 then
        let str := hexEncode datumCbor
        if str ≠ "" then some str else none
      else none
    | _ => none
  let scriptRef : Option ScriptRef :=
    match apolloUTxO.Output.ScriptRef with
    | some (some scriptBytes) =>
      if scriptBytes.length > 0 then some ⟨"plutus_v2", hexEncode scriptBytes⟩ else none
    | _ => none
  { Address := apolloUTxO.Output.Address
    TxHash := hexEncode apolloUTxO.Input.TransactionId
    OutputIndex := toUint64 apolloUTxO.Input.Index
    DatumHash := datumHashStr
    Datum := datumStr
    ScriptRef := scriptRef
    Assets := assetMap }

/-! ## The lookup table of `Evaluate` -/

/-- The key `fmt.Sprintf("%s:%d", hex.EncodeToString(id), index)`. -/
def utxoKey (input : TransactionInput) : String :=
  String.mk (hexChars input.TransactionId ++ ':' :: decimalChars input.Index)

/-- The first loop of `Evaluate`: `utxoMap[key] = utxo` for every resolved UTxO in
list order. -/
def buildUtxoMap (utxos : List ApolloUTxO) : GoMap String ApolloUTxO :=
  utxos.foldl (fun m utxo => m.set (utxoKey utxo.Input) utxo) GoMap.empty

/-! ## Packed results (evaluator.go) -/

/-- Expression `uint32(results[0] >> 32)` on a 64-bit `r`. -/
def resultPtrOf (r : Nat) : Nat := ((r % 2 ^ 64) / 2 ^ 32) % 2 ^ 32

/-- Expression `uint32(results[0])` on a 64-bit `r`. -/
def resultLenOf (r : Nat) : Nat := (r % 2 ^ 64) % 2 ^ 32

/-! ## The guest module and the host's view of it -/

/-- The five exported functions of the guest module. -/
inductive GuestFn where
  | alloc
  | dealloc
  | utxoToInputBytes
  | utxoToOutputBytes
  | evalPhaseTwoRaw
  deriving DecidableEq

/-- What `api.Function.Call` returns: the result values, or `none` for an error. -/
abbrev CallResult := Option (List Nat)

/-- A guest module over a state `σ`: calling an exported function, and
`Memory().Read` / `Memory().Write` on its linear memory (`none` is `ok = false`). -/
structure Guest (σ : Type) where
  call : GuestFn → List Nat → σ → CallResult × σ
  read : σ → Nat → Nat → Option Bytes
  write : σ → Nat → Bytes → Option σ

/-- One call of an exported guest function: which, with what, and what came back. -/
structure Event where
  fn : GuestFn
  args : List Nat
  result : CallResult
  deriving DecidableEq

/-- The guest state together with the log of the guest calls made so far. -/
structure Host (σ : Type) where
  mem : σ
  trace : List Event
  deriving DecidableEq

/-- Method `fn.Call(ctx, args...)`, logged. -/
def guestCall {σ : Type} (G : Guest σ) (fn : GuestFn) (args : List Nat) (h : Host σ) :
    CallResult × Host σ :=
  let r := G.call fn args h.mem
  (r.1, ⟨r.2, h.trace ++ [⟨fn, args, r.1⟩]⟩)

/-- The error values `Evaluate` returns. -/
inductive EvalErr where
  | txDecode
  | missingUTxO (key : String)
  | marshal
  | call
  | noResults
  | readFunctionResult
  | readResult
  | emptyResult
  | resultDecode
  | evaluation (e : EvalError)
  deriving DecidableEq

/-- How a run of `Evaluate` ends: a redeemer list, a returned error, the process
exiting in `log.Fatalf`, or a run-time panic. -/
inductive Outcome where
  | ok (redeemers : List Bytes)
  | err (e : EvalErr)
  | fatal
  | panic
  deriving DecidableEq

/-- How `writeToMemory` ends: with `(ptr, len)`, in `log.Fatalf`, or in the
index panic of `results[0]`. -/
inductive WriteResult where
  | done (ptr size : Nat)
  | fatal
  | panic
  deriving DecidableEq

/-- Method `writeToMemory` (evaluator.go 196-206). -/
def writeToMemory {σ : Type} (G : Guest σ) (h : Host σ) (data : Bytes) : WriteResult × Host σ :=
  match guestCall G .alloc [data.length] h with
  | (none, h1) => (.fatal, h1)
  | (some [], h1) => (.panic, h1)
  | (some (ptr :: _), h1) =>
    match G.write h1.mem (ptr % 2 ^ 32) data with
    | none => (.fatal, h1)
    | some m => (.done ptr data.length, ⟨m, h1.trace⟩)

/-- Method `deallocMemory` (evaluator.go 209-214): a failing call is logged and otherwise ignored. -/
def deallocMemory {σ : Type} (G : Guest σ) (h : Host σ) (ptr size : Nat) : Host σ :=
  (guestCall G .dealloc [ptr, size] h).2

/-- Method `callFunction` (evaluator.go 217-241). -/
def callFunction {σ : Type} (G : Guest σ) (fn : GuestFn) (args : List Nat) (h : Host σ) :
    Except EvalErr Bytes × Host σ :=
  match guestCall G fn args h with
  | (none, h1) => (.error .call, h1)
  | (some [], h1) => (.error .noResults, h1)
  | (some (r :: _), h1) =>
    let resultPtr := resultPtrOf r
    let resultLen := resultLenOf r
    match G.read h1.mem resultPtr resultLen with
    | none => (.error .readFunctionResult, h1)
    | some resultBytes => (.ok resultBytes, deallocMemory G h1 resultPtr resultLen)

/-- The library calls `Evaluate` makes on CBOR data: `GetTxFromBytes`,
`apolloCbor.Marshal(utxo)`, `decoder.Decode(&cborArray)` and
`apolloCbor.Unmarshal(.., &evalError)`; `none` is a returned error. -/
structure Codec where
  decodeTx : Bytes → Option Transaction
  marshalUTxO : UTxO → Option Bytes
  decodeRedeemers : Bytes → Option (List Bytes)
  decodeEvalError : Bytes → Option EvalError

/-! ## `Evaluate` (evaluator.go) -/

/-- The variables of the input loop of `Evaluate`: the guest, the two record
lists, and the deferred `deallocMemory` calls, most recent first. -/
structure LoopState (σ : Type) where
  host : Host σ
  inputBytes : List Bytes
  outputBytes : List Bytes
  deferred : List (Nat × Nat)
  deriving DecidableEq

/-- Running the deferred `deallocMemory` calls, last registered first. -/
def runDeferred {σ : Type} (G : Guest σ) (deferred : List (Nat × Nat)) (h : Host σ) : Host σ :=
  deferred.foldl (fun acc region => deallocMemory G acc region.1 region.2) h

/-- Leaving `Evaluate`: deferred calls run on a return and on a panic, not when
`log.Fatalf` exits the process. -/
def exitWith {σ : Type} (G : Guest σ) (o : Outcome) (deferred : List (Nat × Nat)) (h : Host σ) :
    Outcome × Host σ :=
  match o with
  | .fatal => (.fatal, h)
  | _ => (o, runDeferred G deferred h)

/-- The loop body of `Evaluate` after the lookup succeeded with `apolloUTxO`
(evaluator.go 111-138). -/
def encodeUTxO {σ : Type} (G : Guest σ) (C : Codec) (s : LoopState σ) (apolloUTxO : ApolloUTxO) :
    Except (Outcome × LoopState σ) (LoopState σ) :=
  let assetMap := prepareAssetMap apolloUTxO
  let utxo := prepareUTxO apolloUTxO assetMap
  match C.marshalUTxO utxo with
  | none => .error (.err .marshal, s)
  | some utxoCbor =>
    match writeToMemory G s.host utxoCbor with
    | (.fatal, h1) => .error (.fatal, { s with host := h1 })
    | (.panic, h1) => .error (.panic, { s with host := h1 })
    | (.done utxoPtr utxoLen, h1) =>
      let deferred := (utxoPtr, utxoLen) :: s.deferred
      match callFunction G .utxoToInputBytes [utxoPtr, utxoLen] h1 with
      | (.error e, h2) => .error (.err e, { s with host := h2, deferred := deferred })
      | (.ok inputUtxoBytes, h2) =>
        let inputBytes := s.inputBytes ++ [inputUtxoBytes]
        match callFunction G .utxoToOutputBytes [utxoPtr, utxoLen] h2 with
        | (.error e, h3) =>
          .error (.err e, { s with host := h3, deferred := deferred, inputBytes := inputBytes })
        | (.ok outputUtxoBytes, h3) =>
          .ok ⟨h3, inputBytes, s.outputBytes ++ [outputUtxoBytes], deferred⟩

/-- The loop body of `Evaluate` for one transaction input (evaluator.go 101-139). -/
def processInput {σ : Type} (G : Guest σ) (C : Codec) (utxoMap : GoMap String ApolloUTxO)
    (s : LoopState σ) (input : TransactionInput) :
    Except (Outcome × LoopState σ) (LoopState σ) :=
  let key := utxoKey input
  match utxoMap.get? key with
  | none => .error (.err (.missingUTxO key), s)
  | some apolloUTxO => encodeUTxO G C s apolloUTxO

/-- The input loop of `Evaluate`. -/
def processInputs {σ : Type} (G : Guest σ) (C : Codec) (utxoMap : GoMap String ApolloUTxO)
    (inputs : List TransactionInput) (s : LoopState σ) :
    Except (Outcome × LoopState σ) (LoopState σ) :=
  inputs.foldlM (processInput G C utxoMap) s

/-- The verdict decoding at the end of `Evaluate` (evaluator.go 172-192). -/
def decodeVerdict (C : Codec) (resultBytes : Bytes) : Outcome :=
  match resultBytes with
  | [] => .err .emptyResult
  | tag :: rest =>
    if tag = 0 then
      match C.decodeRedeemers rest with
      | none => .err .resultDecode
      | some cborArray => .ok cborArray
    else
      match C.decodeEvalError rest with
      | none => .err .resultDecode
      | some evalError => .err (.evaluation evalError)

/-- The end of `Evaluate` (evaluator.go 162-193), from unpacking `results[0]` on: read the result region,
defer its release, decode the verdict. -/
def readVerdict {σ : Type} (G : Guest σ) (C : Codec) (deferred : List (Nat × Nat)) (r : Nat)
    (h : Host σ) : Outcome × Host σ :=
  let resultPtr := resultPtrOf r
  let resultLen := resultLenOf r
  match G.read h.mem resultPtr resultLen with
  | none => exitWith G (.err .readResult) deferred h
  | some resultBytes =>
    exitWith G (decodeVerdict C resultBytes) ((resultPtr, resultLen) :: deferred) h

/-- The part of `Evaluate` after the input loop (evaluator.go 141-160). -/
def evaluateTail {σ : Type} (G : Guest σ) (C : Codec) (config : EvaluatorConfig) (txBytes : Bytes)
    (s : LoopState σ) : Outcome × Host σ :=
  match serializeUTxOs s.inputBytes s.outputBytes with
  | none => exitWith G .panic s.deferred s.host
  | some serializedUtxos =>
    match writeToMemory G s.host txBytes with
    | (.fatal, h1) => (.fatal, h1)
    | (.panic, h1) => exitWith G .panic s.deferred h1
    | (.done txPtr txLen, h1) =>
      match writeToMemory G h1 serializedUtxos with
      | (.fatal, h2) => (.fatal, h2)
      | (.panic, h2) => exitWith G .panic s.deferred h2
      | (.done utxosPtr utxosLen, h2) =>
        match writeToMemory G h2 config.CostModels with
        | (.fatal, h3) => (.fatal, h3)
        | (.panic, h3) => exitWith G .panic s.deferred h3
        | (.done costModelsPtr costModelsLen, h3) =>
          let deferred :=
            (costModelsPtr, costModelsLen) :: (utxosPtr, utxosLen) :: (txPtr, txLen) :: s.deferred
          match guestCall G .evalPhaseTwoRaw
              [txPtr, txLen, utxosPtr, utxosLen, costModelsPtr, costModelsLen,
               config.MaxTxExSteps, config.MaxTxExMem,
               config.ZeroTime, config.ZeroSlot, config.SlotLength] h3 with
          | (none, h4) => exitWith G (.err .call) deferred h4
          | (some [], h4) => exitWith G .panic deferred h4
          | (some (r :: _), h4) => readVerdict G C deferred r h4

/-- Method `Evaluate` (evaluator.go 83-193): decode the transaction, build the lookup
table, run the input loop, then `evaluateTail`. -/
def Evaluate {σ : Type} (G : Guest σ) (C : Codec) (config : EvaluatorConfig) (txBytes : Bytes)
    (utxos : List ApolloUTxO) (h : Host σ) : Outcome × Host σ :=
  match C.decodeTx txBytes with
  | none => (.err .txDecode, h)
  | some tx =>
    let utxoMap := buildUtxoMap utxos
    match processInputs G C utxoMap tx.Inputs ⟨h, [], [], []⟩ with
    | .error (o, s) => exitWith G o s.deferred s.host
    | .ok s => evaluateTail G C config txBytes s

/-! ## Regions obtained and released, read off the call log -/

/-- The region a logged call handed to the host, if any: `(ptr, size)` for an
`alloc` that returned `ptr`, the unpacked `(pointer, length)` for the three
functions that return a packed result. -/
def Event.obtains (e : Event) : Option (Nat × Nat) :=
  match e.fn, e.args, e.result with
  | .alloc, [size], some (ptr :: _) => some (ptr, size)
  | .utxoToInputBytes, _, some (r :: _) => some (resultPtrOf r, resultLenOf r)
  | .utxoToOutputBytes, _, some (r :: _) => some (resultPtrOf r, resultLenOf r)
  | .evalPhaseTwoRaw, _, some (r :: _) => some (resultPtrOf r, resultLenOf r)
  | _, _, _ => none

/-- The region a logged call passed to `dealloc`, if it is one. -/
def Event.releases (e : Event) : Option (Nat × Nat) :=
  match e.fn, e.args with
  | .dealloc, [ptr, size] => some (ptr, size)
  | _, _ => none

/-- Every region obtained in a log, in order, with repetitions. -/
def obtained (trace : List Event) : List (Nat × Nat) := trace.filterMap Event.obtains

/-- Every region passed to `dealloc` in a log, in order, with repetitions. -/
def released (trace : List Event) : List (Nat × Nat) := trace.filterMap Event.releases

/-! ## A sample guest and sample data -/

/-- State of the sample guest: a bump pointer and the regions written so far. -/
structure ToyState where
  next : Nat
  regions : List (Nat × Bytes)
  deriving DecidableEq

/-- The bytes of the region that starts at `ptr`. -/
def toyRegion (regions : List (Nat × Bytes)) (ptr : Nat) : Option Bytes :=
  match regions.find? (fun region => region.1 == ptr) with
  | some region => some region.2
  | none => none

/-- The sample guest stores `out` in a fresh region and returns it packed. -/
def toyEmit (st : ToyState) (out : Bytes) : CallResult × ToyState :=
  (some [st.next * 2 ^ 32 + out.length], ⟨st.next + out.length + 1, (st.next, out) :: st.regions⟩)

/-- A sample guest: a bump allocator; an input record is the UTxO bytes behind
the tag 1, an output record the same behind the tag 2; evaluation succeeds with
the frame it was given as its only redeemer. -/
def toyGuest : Guest ToyState where
  call fn args st :=
    match fn, args with
    | .alloc, [size] => (some [st.next], ⟨st.next + size + 1, st.regions⟩)
    | .dealloc, _ => (some [], st)
    | .utxoToInputBytes, [ptr, _] => toyEmit st (1 :: (toyRegion st.regions ptr).getD [])
    | .utxoToOutputBytes, [ptr, _] => toyEmit st (2 :: (toyRegion st.regions ptr).getD [])
    | .evalPhaseTwoRaw, _ :: _ :: utxosPtr :: _ => toyEmit st (0 :: (toyRegion st.regions utxosPtr).getD [])
    | _, _ => (none, st)
  read st ptr len :=
    match toyRegion st.regions ptr with
    | some bytes => if len = bytes.length then some bytes else none
    | none => none
  write st ptr data := some ⟨st.next, (ptr, data) :: st.regions⟩

/-- The sample guest with a memory that refuses every read. -/
def unreadableGuest : Guest ToyState :=
  { toyGuest with read := fun _ _ _ => none }

/-- The sample guest with an evaluation that fails: its verdict is the tag 1
followed by one payload byte. -/
def failGuest : Guest ToyState :=
  { toyGuest with call := fun fn args st =>
      match fn with
      | .evalPhaseTwoRaw => toyEmit st [1, 9]
      | _ => toyGuest.call fn args st }

/-- The sample guest with an `alloc` that always fails. -/
def noAllocGuest : Guest ToyState :=
  { toyGuest with call := fun fn args st =>
      match fn with
      | .alloc => (none, st)
      | _ => toyGuest.call fn args st }

/-- A sample codec: a transaction is one input per byte (that byte as hash, index
0); a UTxO record is marshalled to its base-coin quantity as one byte; a success
payload is a single redeemer; a failure payload is a fixed record. -/
def toyCodec : Codec where
  decodeTx bytes := some ⟨bytes.map (fun b => ⟨[b], 0⟩)⟩
  marshalUTxO utxo := some [byteOf ((utxo.Assets.get? "lovelace").getD 0)]
  decodeRedeemers rest := some [rest]
  decodeEvalError _ := some ⟨"failed", ⟨0, 0⟩, []⟩

/-- A sample configuration. -/
def toyConfig : EvaluatorConfig := ⟨[], 10, 10, 0, 0, 1⟩

/-- A sample resolved UTxO holding only the base coin: hash byte `id`, index 0. -/
def toyUTxO (id : Byte) (coin : Int) : ApolloUTxO :=
  ⟨⟨[id], 0⟩, ⟨"addr", ⟨coin, []⟩, none, none, none⟩⟩

/-- The sample guest before any call. -/
def toyHost : Host ToyState := ⟨⟨1, []⟩, []⟩

/-- A UTxO with 5 base coins and the pairs `("ab", "cd")` and `("abcd", "")`. -/
def clashUTxO : ApolloUTxO :=
  ⟨⟨[7], 0⟩, ⟨"addr", ⟨5, [(⟨"ab"⟩, [(⟨"cd"⟩, 1)]), (⟨"abcd"⟩, [(⟨""⟩, 2)])]⟩, none, none, none⟩⟩

/-- A UTxO with 5 base coins and one pair of quantity 3. -/
def tokenUTxO : ApolloUTxO :=
  ⟨⟨[7], 0⟩, ⟨"addr", ⟨5, [(⟨"ab"⟩, [(⟨"cd"⟩, 3)])]⟩, none, none, none⟩⟩

/-! ## Predicates on call logs, used in the proofs -/

/-- Reading decimal digits back as a number (used only in proofs). -/
def readDecimal (acc : Nat) (cs : List Char) : Nat :=
  cs.foldl (fun a c => a * 10 + (c.toNat - 48)) acc

/-- No call of `eval_phase_two_raw` in a log. -/
def noEval (trace : List Event) : Prop := ∀ e ∈ trace, e.fn ≠ GuestFn.evalPhaseTwoRaw

/-- The packed-result functions the input loop calls. -/
def isRecordFn (fn : GuestFn) : Prop := fn = .utxoToInputBytes ∨ fn = .utxoToOutputBytes

/-- Every region obtained so far has been released once or is pending release. -/
def Balanced (trace : List Event) (pending : List (Nat × Nat)) : Prop :=
  (obtained trace).Perm (released trace ++ pending)

/-- As `Balanced`, but for one obtained region that is neither released nor pending. -/
def BalancedBut (trace : List Event) (pending : List (Nat × Nat)) : Prop :=
  ∃ region, (obtained trace).Perm (region :: (released trace ++ pending))

/-- What holds of the log when the input loop stops early with outcome `o`. -/
def LoopExit {σ : Type} (o : Outcome) (s : LoopState σ) : Prop :=
  match o with
  | .ok _ => False
  | .err .readFunctionResult => BalancedBut s.host.trace s.deferred
  | .err .readResult => False
  | .err _ => Balanced s.host.trace s.deferred
  | .fatal => True
  | .panic => True

/-- What holds of the log when `Evaluate` has ended with outcome `o`: every obtained
region was released once, except, after a failed read of a result region, that region. -/
def Settled (o : Outcome) (trace : List Event) : Prop :=
  match o with
  | .ok _ => (obtained trace).Perm (released trace)
  | .err .readFunctionResult => ∃ region, (obtained trace).Perm (region :: released trace)
  | .err .readResult => ∃ region, (obtained trace).Perm (region :: released trace)
  | .err _ => (obtained trace).Perm (released trace)
  | .fatal => True
  | .panic => True

/-- Every `alloc` call in a log came back with a result. -/
def allocOk (trace : List Event) : Prop :=
  ∀ e ∈ trace, e.fn = GuestFn.alloc → e.result ≠ none

/-! ## Framing -/

theorem putUint64LE_length (v : Nat) : (putUint64LE v).length = 8 := rfl

theorem getUint64LE_putUint64LE (v : Nat) : getUint64LE (putUint64LE v) = v % 2 ^ 64 := by
  simp only [getUint64LE, putUint64LE, byteOf, List.take, List.foldr]
  norm_num
  omega

theorem putUint64LE_inj {a b : Nat} (ha : a < 2 ^ 64) (hb : b < 2 ^ 64)
    (h : putUint64LE a = putUint64LE b) : a = b := by
  have h1 := congrArg getUint64LE h
  rw [getUint64LE_putUint64LE, getUint64LE_putUint64LE, Nat.mod_eq_of_lt ha,
    Nat.mod_eq_of_lt hb] at h1
  exact h1

/-- The groups of a frame, without the leading count. -/
theorem frameGroups_append (X1 X2 Y1 Y2 : List Bytes) (h : X1.length = Y1.length) :
    (((X1 ++ X2).zip (Y1 ++ Y2)).map (fun p => frameGroup p.1 p.2)).flatten
      = ((X1.zip Y1).map (fun p => frameGroup p.1 p.2)).flatten
        ++ ((X2.zip Y2).map (fun p => frameGroup p.1 p.2)).flatten := by
  rw [List.zip_append h, List.map_append, List.flatten_append]

theorem serializeLoop_eq (X Y : List Bytes) (hlen : X.length = Y.length) (init : Bytes) :
    ∀ n, n ≤ X.length →
      (List.range n).foldlM (serializeStep X Y) init
        = some (init ++ (((X.take n).zip (Y.take n)).map (fun p => frameGroup p.1 p.2)).flatten) := by
  intro n
  induction n with
  | zero => intro _; simp
  | succ n ih =>
    intro hn
    have hx : n < X.length := hn
    have hy : n < Y.length := hlen ▸ hn
    rw [List.range_succ, List.foldlM_append, ih (Nat.le_of_lt hx)]
    have hxs : X.take (n + 1) = X.take n ++ [X[n]] := by
      rw [List.take_succ, List.getElem?_eq_getElem hx]; rfl
    have hys : Y.take (n + 1) = Y.take n ++ [Y[n]] := by
      rw [List.take_succ, List.getElem?_eq_getElem hy]; rfl
    have hl : (X.take n).length = (Y.take n).length := by
      simp [List.length_take, hlen]
    rw [hxs, hys, frameGroups_append _ _ _ _ hl]
    simp [serializeStep, List.getElem?_eq_getElem hx, List.getElem?_eq_getElem hy, frameGroup]

/-- C1: for lists of equal length, `serializeUTxOs` returns the count followed by the
groups `(len, input bytes, len, output bytes)` in order, and nothing else. -/
theorem serializeUTxOs_frame (X Y : List Bytes) (hlen : X.length = Y.length) :
    serializeUTxOs X Y
      = some (putUint64LE X.length
          ++ ((X.zip Y).map (fun p =>
                putUint64LE p.1.length ++ p.1 ++ putUint64LE p.2.length ++ p.2)).flatten) := by
  have h := serializeLoop_eq X Y hlen (putUint64LE X.length) X.length (Nat.le_refl _)
  rw [List.take_length] at h
  have hy : Y.take X.length = Y := by rw [hlen, List.take_length]
  rw [hy] at h
  exact h

theorem serializeUTxOs_frame_witness :
    ([[1, 2], []] : List Bytes).length = ([[3], [4, 5]] : List Bytes).length ∧
    serializeUTxOs [[1, 2], []] [[3], [4, 5]]
      = some (putUint64LE ([[1, 2], []] : List Bytes).length
          ++ ((([[1, 2], []] : List Bytes).zip [[3], [4, 5]]).map (fun p =>
                putUint64LE p.1.length ++ p.1 ++ putUint64LE p.2.length ++ p.2)).flatten) :=
  ⟨rfl, serializeUTxOs_frame [[1, 2], []] [[3], [4, 5]] rfl⟩

theorem lengthTagged_inj {a b ra rb : Bytes} (ha : a.length < 2 ^ 64) (hb : b.length < 2 ^ 64)
    (h : putUint64LE a.length ++ (a ++ ra) = putUint64LE b.length ++ (b ++ rb)) :
    a = b ∧ ra = rb := by
  have h1 := List.append_inj h (by simp [putUint64LE_length])
  have hl : a.length = b.length := putUint64LE_inj ha hb h1.1
  exact List.append_inj h1.2 hl

theorem frameGroups_inj :
    ∀ (X Y X2 Y2 : List Bytes), X.length = Y.length → X2.length = Y2.length →
      X.length = X2.length →
      (∀ x ∈ X, x.length < 2 ^ 64) → (∀ y ∈ Y, y.length < 2 ^ 64) →
      (∀ x ∈ X2, x.length < 2 ^ 64) → (∀ y ∈ Y2, y.length < 2 ^ 64) →
      ((X.zip Y).map (fun p => frameGroup p.1 p.2)).flatten
        = ((X2.zip Y2).map (fun p => frameGroup p.1 p.2)).flatten →
      X = X2 ∧ Y = Y2 := by
  intro X
  induction X with
  | nil =>
    intro Y X2 Y2 h1 h2 h3 _ _ _ _ _
    have hY : Y = [] := List.length_eq_zero.mp h1.symm
    have hX2 : X2 = [] := List.length_eq_zero.mp h3.symm
    subst hY; subst hX2
    exact ⟨rfl, (List.length_eq_zero.mp h2.symm).symm⟩
  | cons x X ih =>
    intro Y X2 Y2 h1 h2 h3 bX bY bX2 bY2 h
    cases Y with
    | nil => simp at h1
    | cons y Y =>
      cases X2 with
      | nil => simp at h3
      | cons x2 X2 =>
        cases Y2 with
        | nil => simp at h2
        | cons y2 Y2 =>
          simp only [List.zip_cons_cons, List.map_cons, List.flatten_cons] at h
          have hg : ∀ (a b rest : Bytes), frameGroup a b ++ rest
              = putUint64LE a.length ++ (a ++ (putUint64LE b.length ++ (b ++ rest))) := by
            intro a b rest; simp [frameGroup]
          rw [hg, hg] at h
          have hx := lengthTagged_inj (bX x (List.mem_cons_self _ _)) (bX2 x2 (List.mem_cons_self _ _)) h
          have hy := lengthTagged_inj (bY y (List.mem_cons_self _ _)) (bY2 y2 (List.mem_cons_self _ _)) hx.2
          have hrest := ih Y X2 Y2 (by simpa using h1) (by simpa using h2) (by simpa using h3)
            (fun a ha => bX a (List.mem_cons_of_mem _ ha))
            (fun a ha => bY a (List.mem_cons_of_mem _ ha))
            (fun a ha => bX2 a (List.mem_cons_of_mem _ ha))
            (fun a ha => bY2 a (List.mem_cons_of_mem _ ha)) hy.2
          rw [hx.1, hy.1, hrest.1, hrest.2]
          exact ⟨rfl, rfl⟩

theorem serializeUTxOs_eq_frameSpec (X Y : List Bytes) (hlen : X.length = Y.length) :
    serializeUTxOs X Y = some (frameSpec X Y) := by
  have h := serializeLoop_eq X Y hlen (putUint64LE X.length) X.length (Nat.le_refl _)
  rw [List.take_length] at h
  have hy : Y.take X.length = Y := by rw [hlen, List.take_length]
  rw [hy] at h
  exact h

/-- C10: on well-formed arguments (paired lists, every length below `2 ^ 64`)
`serializeUTxOs` is injective: equal frames come from equal input and output records. -/
theorem serializeUTxOs_injective (X Y X2 Y2 : List Bytes)
    (hlen : X.length = Y.length) (hlen2 : X2.length = Y2.length)
    (hN : X.length < 2 ^ 64) (hN2 : X2.length < 2 ^ 64)
    (bX : ∀ x ∈ X, x.length < 2 ^ 64) (bY : ∀ y ∈ Y, y.length < 2 ^ 64)
    (bX2 : ∀ x ∈ X2, x.length < 2 ^ 64) (bY2 : ∀ y ∈ Y2, y.length < 2 ^ 64)
    (h : serializeUTxOs X Y = serializeUTxOs X2 Y2) : X = X2 ∧ Y = Y2 := by
  rw [serializeUTxOs_eq_frameSpec X Y hlen, serializeUTxOs_eq_frameSpec X2 Y2 hlen2] at h
  have h0 := Option.some.inj h
  unfold frameSpec at h0
  have h1 := List.append_inj h0 (by simp [putUint64LE_length])
  exact frameGroups_inj X Y X2 Y2 hlen hlen2 (putUint64LE_inj hN hN2 h1.1) bX bY bX2 bY2 h1.2

theorem serializeUTxOs_injective_witness :
    ([[1, 2]] : List Bytes) = [[1, 2]] ∧ ([[3]] : List Bytes) = [[3]] :=
  serializeUTxOs_injective [[1, 2]] [[3]] [[1, 2]] [[3]] rfl rfl (by decide) (by decide)
    (by decide) (by decide) (by decide) (by decide) rfl

/-- C8: a 64-bit packed result `r` unpacks to the pointer `r / 2 ^ 32` and the length
`r % 2 ^ 32`, both 32-bit, with `pointer * 2 ^ 32 + length = r`; `callFunction` and
the end of `Evaluate` read and release exactly that region. -/
theorem packedResult_unpack {σ : Type} (G : Guest σ) (C : Codec) (r : Nat) (hr : r < 2 ^ 64) :
    resultPtrOf r = r / 2 ^ 32 ∧ resultLenOf r = r % 2 ^ 32 ∧
    resultPtrOf r < 2 ^ 32 ∧ resultLenOf r < 2 ^ 32 ∧
    resultPtrOf r * 2 ^ 32 + resultLenOf r = r ∧
    (∀ (fn : GuestFn) (args rest : List Nat) (h h1 : Host σ),
      guestCall G fn args h = (some (r :: rest), h1) →
      callFunction G fn args h =
        match G.read h1.mem (r / 2 ^ 32) (r % 2 ^ 32) with
        | none => (.error .readFunctionResult, h1)
        | some resultBytes => (.ok resultBytes, deallocMemory G h1 (r / 2 ^ 32) (r % 2 ^ 32))) ∧
    (∀ (deferred : List (Nat × Nat)) (h : Host σ),
      readVerdict G C deferred r h =
        match G.read h.mem (r / 2 ^ 32) (r % 2 ^ 32) with
        | none => exitWith G (.err .readResult) deferred h
        | some resultBytes =>
          exitWith G (decodeVerdict C resultBytes) ((r / 2 ^ 32, r % 2 ^ 32) :: deferred) h) := by
  have hp : resultPtrOf r = r / 2 ^ 32 := by unfold resultPtrOf; omega
  have hl : resultLenOf r = r % 2 ^ 32 := by unfold resultLenOf; omega
  refine ⟨hp, hl, by omega, by omega, by omega, ?_, ?_⟩
  · intro fn args rest h h1 hc
    simp only [callFunction, hc, hp, hl]
  · intro deferred h
    simp only [readVerdict, hp, hl]

theorem packedResult_unpack_witness :
    (12884901890 : Nat) < 2 ^ 64 ∧ resultPtrOf 12884901890 = 3 ∧ resultLenOf 12884901890 = 2 :=
  ⟨by decide,
   (packedResult_unpack toyGuest toyCodec 12884901890 (by decide)).1.trans (by decide),
   (packedResult_unpack toyGuest toyCodec 12884901890 (by decide)).2.1.trans (by decide)⟩

/-! ## The asset ledger -/

theorem setEntries_fresh {κ ν : Type} [DecidableEq κ] (l : List (κ × ν)) (k : κ) (v : ν)
    (h : k ∉ l.map Prod.fst) : GoMap.setEntries l k v = l ++ [(k, v)] := by
  induction l with
  | nil => rfl
  | cons a l ih =>
    obtain ⟨k0, v0⟩ := a
    simp only [List.map_cons, List.mem_cons, not_or] at h
    have hne : ¬ k0 = k := fun e => h.1 e.symm
    simp [GoMap.setEntries, hne, ih h.2]

theorem getEntries_append_single {κ ν : Type} [DecidableEq κ] (l : List (κ × ν)) (k : κ) (v : ν)
    (h : k ∉ l.map Prod.fst) : GoMap.getEntries (l ++ [(k, v)]) k = some v := by
  induction l with
  | nil => simp [GoMap.getEntries]
  | cons a l ih =>
    obtain ⟨k0, v0⟩ := a
    simp only [List.map_cons, List.mem_cons, not_or] at h
    have hne : ¬ k0 = k := fun e => h.1 e.symm
    simp [GoMap.getEntries, hne, ih h.2]

theorem getEntries_of_mem {κ ν : Type} [DecidableEq κ] (l : List (κ × ν)) (k : κ) (v : ν)
    (hnd : (l.map Prod.fst).Nodup) (hmem : (k, v) ∈ l) : GoMap.getEntries l k = some v := by
  induction l with
  | nil => cases hmem
  | cons a l ih =>
    obtain ⟨k0, v0⟩ := a
    simp only [List.map_cons, List.nodup_cons] at hnd
    rcases List.mem_cons.mp hmem with h | h
    · cases h; simp [GoMap.getEntries]
    · have hne : ¬ k0 = k := by
        intro e
        apply hnd.1
        rw [e]
        exact List.mem_map_of_mem Prod.fst h
      simp [GoMap.getEntries, hne, ih hnd.2 h]

theorem foldl_set_fresh {κ ν : Type} [DecidableEq κ] (kvs : List (κ × ν)) :
    ∀ (m : GoMap κ ν), (kvs.map Prod.fst).Nodup →
      (∀ k ∈ kvs.map Prod.fst, k ∉ m.entries.map Prod.fst) →
      (kvs.foldl (fun acc kv => acc.set kv.1 kv.2) m).entries = m.entries ++ kvs := by
  induction kvs with
  | nil => intro m _ _; simp
  | cons kv kvs ih =>
    intro m hnd hdis
    simp only [List.map_cons, List.nodup_cons] at hnd
    have hk : kv.1 ∉ m.entries.map Prod.fst := hdis kv.1 (by simp)
    have hset : (m.set kv.1 kv.2).entries = m.entries ++ [kv] := by
      simp [GoMap.set, setEntries_fresh _ _ _ hk]
    rw [List.foldl_cons, ih (m.set kv.1 kv.2) hnd.2, hset]
    · simp
    · intro k hkm
      rw [hset]
      simp only [List.map_append, List.map_cons, List.map_nil, List.mem_append,
        List.mem_singleton, not_or]
      refine ⟨hdis k (by simp [List.mem_map] at hkm ⊢; exact Or.inr hkm), ?_⟩
      intro e
      exact hnd.1 (e ▸ hkm)

/-- The ledger entry a pair contributes. -/
theorem prepareAssetMap_eq_foldl (u : ApolloUTxO) :
    prepareAssetMap u
      = ((assetPairs u).map (fun p => (assetId p, toUint64 p.2.2))).foldl
          (fun acc kv => acc.set kv.1 kv.2)
          ((GoMap.empty : GoMap String Nat).set "lovelace" (toUint64 u.Output.Amount.Coin)) := by
  unfold prepareAssetMap assetPairs
  generalize (GoMap.empty : GoMap String Nat).set "lovelace" (toUint64 u.Output.Amount.Coin) = m0
  generalize u.Output.Amount.Assets = assets
  induction assets generalizing m0 with
  | nil => rfl
  | cons g assets ih =>
    simp only [List.foldl_cons, List.map_cons, List.flatten_cons, List.map_append,
      List.foldl_append]
    rw [ih]
    congr 1
    unfold addAssetGroup
    rw [List.map_map, List.foldl_map]
    rfl

theorem prepareAssetMap_entries (u : ApolloUTxO)
    (hnd : ((assetPairs u).map assetId).Nodup)
    (hlov : "lovelace" ∉ (assetPairs u).map assetId) :
    (prepareAssetMap u).entries
      = ("lovelace", toUint64 u.Output.Amount.Coin)
          :: (assetPairs u).map (fun p => (assetId p, toUint64 p.2.2)) := by
  rw [prepareAssetMap_eq_foldl, foldl_set_fresh]
  · rfl
  · simpa [List.map_map, Function.comp_def] using hnd
  · intro k hk
    have hk2 : k ∈ (assetPairs u).map assetId := by
      simpa [List.map_map, Function.comp_def] using hk
    have hne : k ≠ "lovelace" := fun e => hlov (e ▸ hk2)
    simpa [GoMap.set, GoMap.empty, GoMap.setEntries] using hne

/-- C9, amended: when the identifiers `policy ++ hexName` of the pairs on a UTxO are
pairwise distinct and none is `"lovelace"`, the ledger is exactly the `"lovelace"`
entry with the base-coin quantity followed by one entry per pair, keyed by its
identifier, each value being the quantity converted to `uint64` (the quantity itself
when it lies between 0 and `2 ^ 64 - 1`); so it has one entry more than there are
pairs, and every key is bound once. -/
theorem prepareAssetMap_ledger (u : ApolloUTxO)
    (hnd : ((assetPairs u).map assetId).Nodup)
    (hlov : "lovelace" ∉ (assetPairs u).map assetId) :
    (prepareAssetMap u).entries
        = ("lovelace", toUint64 u.Output.Amount.Coin)
            :: (assetPairs u).map (fun p => (assetId p, toUint64 p.2.2)) ∧
    (prepareAssetMap u).get? "lovelace" = some (toUint64 u.Output.Amount.Coin) ∧
    (∀ p ∈ assetPairs u, (prepareAssetMap u).get? (assetId p) = some (toUint64 p.2.2)) ∧
    ((prepareAssetMap u).entries.map Prod.fst).Nodup ∧
    (prepareAssetMap u).size = (assetPairs u).length + 1 ∧
    (∀ q : Int, 0 ≤ q → q < 2 ^ 64 → (toUint64 q : Int) = q) := by
  have he := prepareAssetMap_entries u hnd hlov
  have hkeys : ((prepareAssetMap u).entries.map Prod.fst).Nodup := by
    rw [he]
    simp only [List.map_cons, List.map_map, List.nodup_cons]
    refine ⟨?_, ?_⟩
    · simpa [Function.comp_def] using hlov
    · simpa [Function.comp_def] using hnd
  refine ⟨he, ?_, ?_, hkeys, ?_, ?_⟩
  · simp [GoMap.get?, he, GoMap.getEntries]
  · intro p hp
    unfold GoMap.get?
    apply getEntries_of_mem _ _ _ hkeys
    rw [he]
    exact List.mem_cons_of_mem _ (List.mem_map_of_mem _ hp)
  · simp [GoMap.size, he]
  · intro q h0 h1
    unfold toUint64
    rw [Int.emod_eq_of_lt h0 h1]
    exact Int.toNat_of_nonneg h0

theorem prepareAssetMap_ledger_witness :
    (prepareAssetMap tokenUTxO).entries = [("lovelace", 5), ("abcd", 3)] :=
  (prepareAssetMap_ledger tokenUTxO (by decide) (by decide)).1

/-- C9 as stated fails: two pairs whose identifiers coincide share one ledger entry,
so the ledger has two entries for two pairs, and the first pair's quantity is gone. -/
theorem prepareAssetMap_clash :
    (assetPairs clashUTxO).length = 2 ∧
    (prepareAssetMap clashUTxO).size = 2 ∧
    (prepareAssetMap clashUTxO).entries = [("lovelace", 5), ("abcd", 2)] := by
  decide

/-! ## The lookup key is injective -/

theorem hexDigit_ne_colon (n : Nat) : hexDigit n ≠ ':' := by
  by_cases h : n < 16
  · interval_cases n <;> decide
  · have h16 : 16 ≤ n := Nat.le_of_not_lt h
    have : hexDigit n = '0' := by
      unfold hexDigit
      exact List.getD_eq_default _ _ (by simpa using h16)
    rw [this]; decide

theorem hexDigit_inj {a b : Nat} (ha : a < 16) (hb : b < 16) (h : hexDigit a = hexDigit b) :
    a = b := by
  interval_cases a <;> interval_cases b <;> first | rfl | (exact absurd h (by decide))

theorem colon_not_mem_hexChars (b : Bytes) : ':' ∉ hexChars b := by
  induction b with
  | nil => simp [hexChars]
  | cons x rest ih =>
    simp only [hexChars, List.mem_cons, not_or]
    exact ⟨fun e => hexDigit_ne_colon _ e.symm, fun e => hexDigit_ne_colon _ e.symm, ih⟩

theorem hexChars_inj : ∀ (a b : Bytes), hexChars a = hexChars b → a = b := by
  intro a
  induction a with
  | nil =>
    intro b h
    cases b with
    | nil => rfl
    | cons y b => simp [hexChars] at h
  | cons x a ih =>
    intro b h
    cases b with
    | nil => simp [hexChars] at h
    | cons y b =>
      simp only [hexChars, List.cons.injEq] at h
      have hx : x.val < 256 := x.isLt
      have hy : y.val < 256 := y.isLt
      have h1 := hexDigit_inj (by omega) (by omega) h.1
      have h2 := hexDigit_inj (Nat.mod_lt _ (by decide)) (Nat.mod_lt _ (by decide)) h.2.1
      have hxy : x = y := Fin.ext (by omega)
      rw [hxy, ih b h.2.2]

theorem split_at_separator {α : Type} (c : α) :
    ∀ (a a2 b b2 : List α), c ∉ a → c ∉ a2 → a ++ c :: b = a2 ++ c :: b2 → a = a2 ∧ b = b2 := by
  intro a
  induction a with
  | nil =>
    intro a2 b b2 _ h2 h
    cases a2 with
    | nil => simpa using h
    | cons y a2 =>
      simp only [List.nil_append, List.cons_append, List.cons.injEq] at h
      exact absurd (List.mem_cons.mpr (Or.inl h.1)) h2
  | cons x a ih =>
    intro a2 b b2 h1 h2 h
    cases a2 with
    | nil =>
      simp only [List.nil_append, List.cons_append, List.cons.injEq] at h
      exact absurd (List.mem_cons.mpr (Or.inl h.1.symm)) h1
    | cons y a2 =>
      simp only [List.cons_append, List.cons.injEq] at h
      have hr := ih a2 b b2 (fun m => h1 (List.mem_cons_of_mem _ m))
        (fun m => h2 (List.mem_cons_of_mem _ m)) h.2
      exact ⟨by rw [h.1, hr.1], hr.2⟩

theorem digitChar_value (d : Nat) (h : d < 10) : (Nat.digitChar d).toNat - 48 = d := by
  interval_cases d <;> decide

theorem digitChar_ne_minus (d : Nat) (h : d < 10) : Nat.digitChar d ≠ '-' := by
  interval_cases d <;> decide

theorem readDecimal_toDigitsCore :
    ∀ (fuel n : Nat) (acc : List Char), n < fuel →
      readDecimal 0 (Nat.toDigitsCore 10 fuel n acc) = readDecimal n acc := by
  intro fuel
  induction fuel with
  | zero => intro n acc h; omega
  | succ fuel ih =>
    intro n acc h
    have hd := digitChar_value (n % 10) (Nat.mod_lt _ (by decide))
    simp only [Nat.toDigitsCore]
    split
    · rename_i h0
      simp only [readDecimal, List.foldl_cons, hd]
      congr 1
      omega
    · rename_i h0
      rw [ih (n / 10) _ (by omega)]
      simp only [readDecimal, List.foldl_cons, hd]
      congr 1
      omega

theorem minus_not_mem_toDigitsCore :
    ∀ (fuel n : Nat) (acc : List Char), '-' ∉ acc → '-' ∉ Nat.toDigitsCore 10 fuel n acc := by
  intro fuel
  induction fuel with
  | zero => intro n acc h; simpa [Nat.toDigitsCore] using h
  | succ fuel ih =>
    intro n acc h
    have hd := digitChar_ne_minus (n % 10) (Nat.mod_lt _ (by decide))
    have hacc : '-' ∉ Nat.digitChar (n % 10) :: acc := by
      simp only [List.mem_cons, not_or]
      exact ⟨fun e => hd e.symm, h⟩
    simp only [Nat.toDigitsCore]
    split
    · exact hacc
    · exact ih _ _ hacc

theorem toDigits_inj {a b : Nat} (h : Nat.toDigits 10 a = Nat.toDigits 10 b) : a = b := by
  have ha := readDecimal_toDigitsCore (a + 1) a [] (Nat.lt_succ_self a)
  have hb := readDecimal_toDigitsCore (b + 1) b [] (Nat.lt_succ_self b)
  unfold Nat.toDigits at h
  rw [h, hb] at ha
  simpa [readDecimal] using ha.symm

theorem decimalChars_inj {i j : Int} (h : decimalChars i = decimalChars j) : i = j := by
  have hm : ∀ n, '-' ∉ Nat.toDigits 10 n := fun n =>
    minus_not_mem_toDigitsCore _ _ [] (by simp)
  unfold decimalChars at h
  by_cases hi : i < 0 <;> by_cases hj : j < 0
  · simp only [hi, hj, if_true, List.cons.injEq, true_and] at h
    have := toDigits_inj h
    omega
  · simp only [hi, hj, if_true, if_false] at h
    exact absurd (h ▸ List.mem_cons_self _ _) (hm _)
  · simp only [hi, hj, if_true, if_false] at h
    exact absurd (h ▸ List.mem_cons_self _ _) (hm _)
  · simp only [hi, hj, if_false] at h
    have := toDigits_inj h
    omega

theorem utxoKey_inj {a b : TransactionInput} (h : utxoKey a = utxoKey b) : a = b := by
  unfold utxoKey at h
  have h1 : hexChars a.TransactionId ++ ':' :: decimalChars a.Index
      = hexChars b.TransactionId ++ ':' :: decimalChars b.Index := congrArg String.data h
  have h2 := split_at_separator ':' _ _ _ _ (colon_not_mem_hexChars _) (colon_not_mem_hexChars _) h1
  have hid := hexChars_inj _ _ h2.1
  have hix := decimalChars_inj h2.2
  cases a; cases b
  simp only at hid hix
  rw [hid, hix]

/-! ## The lookup table -/

theorem getEntries_setEntries {κ ν : Type} [DecidableEq κ] (l : List (κ × ν)) (k k2 : κ) (v : ν) :
    GoMap.getEntries (GoMap.setEntries l k v) k2
      = if k = k2 then some v else GoMap.getEntries l k2 := by
  induction l with
  | nil => simp [GoMap.setEntries, GoMap.getEntries]
  | cons a l ih =>
    obtain ⟨k0, v0⟩ := a
    by_cases h0 : k0 = k
    · subst h0
      by_cases h2 : k0 = k2 <;> simp [GoMap.setEntries, GoMap.getEntries, h2]
    · by_cases h2 : k0 = k2
      · subst h2
        have : ¬ k = k0 := fun e => h0 e.symm
        simp [GoMap.setEntries, GoMap.getEntries, h0, this]
      · simp [GoMap.setEntries, GoMap.getEntries, h0, h2, ih]

theorem get?_set {κ ν : Type} [DecidableEq κ] (m : GoMap κ ν) (k k2 : κ) (v : ν) :
    (m.set k v).get? k2 = if k = k2 then some v else m.get? k2 :=
  getEntries_setEntries m.entries k k2 v

theorem buildUtxoMap_append (utxos : List ApolloUTxO) (u : ApolloUTxO) :
    buildUtxoMap (utxos ++ [u]) = (buildUtxoMap utxos).set (utxoKey u.Input) u := by
  simp [buildUtxoMap, List.foldl_append]

/-- Each key resolves to the last UTxO of the list that carries it. -/
theorem get?_buildUtxoMap_last (utxos : List ApolloUTxO) (k : String) :
    (buildUtxoMap utxos).get? k = utxos.reverse.find? (fun u => decide (utxoKey u.Input = k)) := by
  induction utxos using List.reverseRecOn with
  | nil => rfl
  | append_singleton utxos u ih =>
    rw [buildUtxoMap_append, get?_set, List.reverse_append, List.reverse_singleton,
      List.singleton_append, List.find?_cons, ih]
    by_cases h : utxoKey u.Input = k <;> simp [h]

/-- Without duplicate keys, each input resolves to the UTxO with its hash and index. -/
theorem get?_buildUtxoMap_nodup (utxos : List ApolloUTxO) (i : TransactionInput) :
    (utxos.map (fun u => u.Input)).Nodup →
      (buildUtxoMap utxos).get? (utxoKey i) = utxos.find? (fun u => decide (u.Input = i)) := by
  induction utxos using List.reverseRecOn with
  | nil => intro _; rfl
  | append_singleton utxos u ih =>
    intro hnd
    rw [List.map_append, List.nodup_append] at hnd
    rw [buildUtxoMap_append, get?_set, List.find?_append, ih hnd.1]
    by_cases h : u.Input = i
    · have hnone : utxos.find? (fun u => decide (u.Input = i)) = none := by
        rw [List.find?_eq_none]
        intro x hx hxi
        have hxi2 : x.Input = i := by simpa using hxi
        exact hnd.2.2 (List.mem_map_of_mem (fun u => u.Input) hx)
          (by rw [hxi2, ← h]; simp)
      simp [h, hnone]
    · have hk : ¬ utxoKey u.Input = utxoKey i := fun e => h (utxoKey_inj e)
      simp [h, hk]

theorem get?_buildUtxoMap_absent (utxos : List ApolloUTxO) (i : TransactionInput)
    (habs : ∀ u ∈ utxos, u.Input ≠ i) : (buildUtxoMap utxos).get? (utxoKey i) = none := by
  rw [get?_buildUtxoMap_last, List.find?_eq_none]
  intro x hx hxi
  have hmem : x ∈ utxos := List.mem_reverse.mp hx
  have hkey : utxoKey x.Input = utxoKey i := by simpa using hxi
  exact habs x hmem (utxoKey_inj hkey)

theorem processInputs_congr {σ : Type} (G : Guest σ) (C : Codec) (m1 m2 : GoMap String ApolloUTxO)
    (inputs : List TransactionInput)
    (hsame : ∀ i ∈ inputs, m1.get? (utxoKey i) = m2.get? (utxoKey i)) :
    ∀ (s : LoopState σ), processInputs G C m1 inputs s = processInputs G C m2 inputs s := by
  induction inputs with
  | nil => intro s; rfl
  | cons i inputs ih =>
    intro s
    unfold processInputs at ih ⊢
    rw [List.foldlM_cons, List.foldlM_cons]
    have hstep : processInput G C m1 s i = processInput G C m2 s i := by
      unfold processInput
      simp only [hsame i (List.mem_cons_self _ _)]
    rw [hstep]
    cases processInput G C m2 s i with
    | error os => rfl
    | ok s2 => exact ih (fun j hj => hsame j (List.mem_cons_of_mem _ hj)) s2

theorem Evaluate_congr {σ : Type} (G : Guest σ) (C : Codec) (config : EvaluatorConfig)
    (txBytes : Bytes) (utxos utxos2 : List ApolloUTxO) (h : Host σ)
    (hsame : ∀ tx, C.decodeTx txBytes = some tx → ∀ i ∈ tx.Inputs,
      (buildUtxoMap utxos).get? (utxoKey i) = (buildUtxoMap utxos2).get? (utxoKey i)) :
    Evaluate G C config txBytes utxos h = Evaluate G C config txBytes utxos2 h := by
  unfold Evaluate
  cases hd : C.decodeTx txBytes with
  | none => rfl
  | some tx =>
    simp only
    rw [processInputs_congr G C _ _ tx.Inputs (hsame tx hd)]

theorem processInputs_matched {σ : Type} (G : Guest σ) (C : Codec) (utxos : List ApolloUTxO)
    (hnd : (utxos.map (fun u => u.Input)).Nodup) (inputs : List TransactionInput) :
    ∀ (s : LoopState σ), (∀ i ∈ inputs, i ∈ utxos.map (fun u => u.Input)) →
      processInputs G C (buildUtxoMap utxos) inputs s
        = (inputs.filterMap (fun i => utxos.find? (fun u => decide (u.Input = i)))).foldlM
            (encodeUTxO G C) s := by
  induction inputs with
  | nil => intro s _; rfl
  | cons i inputs ih =>
    intro s hall
    have hi : i ∈ utxos.map (fun u => u.Input) := hall i (List.mem_cons_self _ _)
    obtain ⟨u0, hu0, hu0i⟩ := List.mem_map.mp hi
    have hsome : (utxos.find? (fun u => decide (u.Input = i))).isSome := by
      rw [List.find?_isSome]
      exact ⟨u0, hu0, by simpa using hu0i⟩
    obtain ⟨u, hu⟩ := Option.isSome_iff_exists.mp hsome
    unfold processInputs at ih ⊢
    rw [List.foldlM_cons, List.filterMap_cons, hu]
    simp only [List.foldlM_cons]
    have hstep : processInput G C (buildUtxoMap utxos) s i = encodeUTxO G C s u := by
      unfold processInput
      simp only [get?_buildUtxoMap_nodup utxos i hnd, hu]
    rw [hstep]
    cases encodeUTxO G C s u with
    | error os => rfl
    | ok s2 => exact ih s2 (fun j hj => hall j (List.mem_cons_of_mem _ hj))

theorem encodeUTxO_lengths {σ : Type} (G : Guest σ) (C : Codec) (s s2 : LoopState σ)
    (u : ApolloUTxO) (h : encodeUTxO G C s u = .ok s2) :
    s2.inputBytes.length = s.inputBytes.length + 1 ∧
    s2.outputBytes.length = s.outputBytes.length + 1 := by
  unfold encodeUTxO at h
  simp only at h
  split at h
  · cases h
  · split at h
    · cases h
    · cases h
    · split at h
      · cases h
      · split at h
        · cases h
        · cases h
          simp

theorem encodeUTxO_ok {σ : Type} (G : Guest σ) (C : Codec) (s s2 : LoopState σ)
    (u : ApolloUTxO) (h : encodeUTxO G C s u = .ok s2) :
    ∃ utxoCbor utxoPtr utxoLen h1 h2 inputUtxoBytes outputUtxoBytes,
      C.marshalUTxO (prepareUTxO u (prepareAssetMap u)) = some utxoCbor ∧
      writeToMemory G s.host utxoCbor = (.done utxoPtr utxoLen, h1) ∧
      callFunction G .utxoToInputBytes [utxoPtr, utxoLen] h1 = (.ok inputUtxoBytes, h2) ∧
      callFunction G .utxoToOutputBytes [utxoPtr, utxoLen] h2 = (.ok outputUtxoBytes, s2.host) ∧
      s2.inputBytes = s.inputBytes ++ [inputUtxoBytes] ∧
      s2.outputBytes = s.outputBytes ++ [outputUtxoBytes] := by
  unfold encodeUTxO at h
  simp only at h
  cases hm : C.marshalUTxO (prepareUTxO u (prepareAssetMap u)) with
  | none => rw [hm] at h; cases h
  | some utxoCbor =>
    rw [hm] at h
    simp only at h
    rcases hw : writeToMemory G s.host utxoCbor with ⟨w, h1⟩
    rw [hw] at h
    cases w with
    | fatal => cases h
    | panic => cases h
    | done utxoPtr utxoLen =>
      simp only at h
      rcases hc : callFunction G .utxoToInputBytes [utxoPtr, utxoLen] h1 with ⟨c, h2⟩
      rw [hc] at h
      cases c with
      | error e => cases h
      | ok inputUtxoBytes =>
        simp only at h
        rcases hc2 : callFunction G .utxoToOutputBytes [utxoPtr, utxoLen] h2 with ⟨c2, h3⟩
        rw [hc2] at h
        cases c2 with
        | error e => cases h
        | ok outputUtxoBytes =>
          cases h
          exact ⟨utxoCbor, utxoPtr, utxoLen, h1, h2, inputUtxoBytes, outputUtxoBytes,
            rfl, hw, hc, hc2, rfl, rfl⟩

theorem processInputs_lengths {σ : Type} (G : Guest σ) (C : Codec)
    (utxoMap : GoMap String ApolloUTxO) (inputs : List TransactionInput) :
    ∀ (s s2 : LoopState σ), processInputs G C utxoMap inputs s = .ok s2 →
      s2.inputBytes.length = s.inputBytes.length + inputs.length ∧
      s2.outputBytes.length = s.outputBytes.length + inputs.length := by
  induction inputs with
  | nil =>
    intro s s2 h
    cases h
    simp
  | cons i inputs ih =>
    intro s s2 h
    unfold processInputs at ih h
    rw [List.foldlM_cons] at h
    cases hp : processInput G C utxoMap s i with
    | error os => rw [hp] at h; cases h
    | ok s1 =>
      rw [hp] at h
      have h1 : s1.inputBytes.length = s.inputBytes.length + 1 ∧
          s1.outputBytes.length = s.outputBytes.length + 1 := by
        unfold processInput at hp
        simp only at hp
        split at hp
        · cases hp
        · exact encodeUTxO_lengths G C s s1 _ hp
      have h2 := ih s1 s2 h
      simp only [List.length_cons]
      omega

/-! ## What each bridge operation adds to the call log -/

theorem obtained_append (t1 t2 : List Event) : obtained (t1 ++ t2) = obtained t1 ++ obtained t2 := by
  simp [obtained, List.filterMap_append]

theorem released_append (t1 t2 : List Event) : released (t1 ++ t2) = released t1 ++ released t2 := by
  simp [released, List.filterMap_append]

theorem noEval_append_single (t : List Event) (e : Event) (h : noEval t)
    (he : e.fn ≠ GuestFn.evalPhaseTwoRaw) : noEval (t ++ [e]) := by
  intro x hx
  rcases List.mem_append.mp hx with hx | hx
  · exact h x hx
  · rw [List.mem_singleton.mp hx]; exact he

theorem writeToMemory_log {σ : Type} (G : Guest σ) (h : Host σ) (data : Bytes) :
    (noEval h.trace → noEval (writeToMemory G h data).2.trace) ∧
    (∀ ptr size, (writeToMemory G h data).1 = .done ptr size →
      obtained (writeToMemory G h data).2.trace = obtained h.trace ++ [(ptr, size)] ∧
      released (writeToMemory G h data).2.trace = released h.trace) := by
  unfold writeToMemory guestCall
  rcases hc : G.call GuestFn.alloc [data.length] h.mem with ⟨res, m⟩
  have hne : ∀ r : CallResult, (⟨GuestFn.alloc, [data.length], r⟩ : Event).fn
      ≠ GuestFn.evalPhaseTwoRaw := by intro r; simp
  cases res with
  | none =>
    simp only
    exact ⟨fun hn => noEval_append_single _ _ hn (hne _), by intro p n hd; cases hd⟩
  | some rs =>
    cases rs with
    | nil =>
      simp only
      exact ⟨fun hn => noEval_append_single _ _ hn (hne _), by intro p n hd; cases hd⟩
    | cons ptr rest =>
      simp only
      cases hw : G.write m (ptr % 2 ^ 32) data with
      | none =>
        simp only
        exact ⟨fun hn => noEval_append_single _ _ hn (hne _), by intro p n hd; cases hd⟩
      | some m2 =>
        simp only
        refine ⟨fun hn => noEval_append_single _ _ hn (hne _), ?_⟩
        intro p n hd
        cases hd
        simp [obtained_append, released_append, obtained, released, Event.obtains,
          Event.releases]

theorem deallocMemory_log {σ : Type} (G : Guest σ) (h : Host σ) (ptr size : Nat) :
    (noEval h.trace → noEval (deallocMemory G h ptr size).trace) ∧
    obtained (deallocMemory G h ptr size).trace = obtained h.trace ∧
    released (deallocMemory G h ptr size).trace = released h.trace ++ [(ptr, size)] := by
  unfold deallocMemory guestCall
  refine ⟨fun hn => noEval_append_single _ _ hn (by simp), ?_, ?_⟩
  · simp [obtained_append, obtained, Event.obtains]
  · simp [released_append, released, Event.releases]

theorem runDeferred_log {σ : Type} (G : Guest σ) (deferred : List (Nat × Nat)) :
    ∀ (h : Host σ),
      (noEval h.trace → noEval (runDeferred G deferred h).trace) ∧
      obtained (runDeferred G deferred h).trace = obtained h.trace ∧
      released (runDeferred G deferred h).trace = released h.trace ++ deferred := by
  induction deferred with
  | nil => intro h; simp [runDeferred]
  | cons d deferred ih =>
    intro h
    have hd := deallocMemory_log G h d.1 d.2
    have hr := ih (deallocMemory G h d.1 d.2)
    simp only [runDeferred, List.foldl_cons] at hr ⊢
    refine ⟨fun hn => hr.1 (hd.1 hn), ?_, ?_⟩
    · rw [hr.2.1, hd.2.1]
    · rw [hr.2.2, hd.2.2]; simp

theorem callFunction_log {σ : Type} (G : Guest σ) (fn : GuestFn) (args : List Nat) (h : Host σ)
    (hfn : isRecordFn fn) :
    (noEval h.trace → noEval (callFunction G fn args h).2.trace) ∧
    (∀ b, (callFunction G fn args h).1 = .ok b →
      ∃ region, obtained (callFunction G fn args h).2.trace = obtained h.trace ++ [region] ∧
        released (callFunction G fn args h).2.trace = released h.trace ++ [region]) ∧
    (∀ e, (callFunction G fn args h).1 = .error e →
      (e = .readFunctionResult ∧
        ∃ region, obtained (callFunction G fn args h).2.trace = obtained h.trace ++ [region] ∧
          released (callFunction G fn args h).2.trace = released h.trace) ∨
      ((e = .call ∨ e = .noResults) ∧
        obtained (callFunction G fn args h).2.trace = obtained h.trace ∧
        released (callFunction G fn args h).2.trace = released h.trace)) := by
  have hne : fn ≠ GuestFn.evalPhaseTwoRaw := by
    rcases hfn with e | e <;> rw [e] <;> decide
  have hnd : fn ≠ GuestFn.dealloc := by
    rcases hfn with e | e <;> rw [e] <;> decide
  unfold callFunction guestCall
  rcases hc : G.call fn args h.mem with ⟨res, m⟩
  cases res with
  | none =>
    simp only
    refine ⟨fun hn => noEval_append_single _ _ hn hne, (by intro b hb; cases hb), ?_⟩
    intro e he
    cases he
    refine Or.inr ⟨Or.inl rfl, ?_, ?_⟩
    · rcases hfn with e | e <;> subst e <;>
        simp [obtained_append, obtained, Event.obtains]
    · rcases hfn with e | e <;> subst e <;>
        simp [released_append, released, Event.releases]
  | some rs =>
    cases rs with
    | nil =>
      simp only
      refine ⟨fun hn => noEval_append_single _ _ hn hne, (by intro b hb; cases hb), ?_⟩
      intro e he
      cases he
      refine Or.inr ⟨Or.inr rfl, ?_, ?_⟩
      · rcases hfn with e | e <;> subst e <;>
          simp [obtained_append, obtained, Event.obtains]
      · rcases hfn with e | e <;> subst e <;>
          simp [released_append, released, Event.releases]
    | cons r rest =>
      simp only
      have hob : obtained (h.trace ++ [(⟨fn, args, some (r :: rest)⟩ : Event)])
          = obtained h.trace ++ [(resultPtrOf r, resultLenOf r)] := by
        rcases hfn with e | e <;> subst e <;>
          simp [obtained_append, obtained, Event.obtains]
      have hrl : released (h.trace ++ [(⟨fn, args, some (r :: rest)⟩ : Event)])
          = released h.trace := by
        rcases hfn with e | e <;> subst e <;>
          simp [released_append, released, Event.releases]
      cases hrd : G.read m (resultPtrOf r) (resultLenOf r) with
      | none =>
        simp only
        refine ⟨fun hn => noEval_append_single _ _ hn hne, (by intro b hb; cases hb), ?_⟩
        intro e he
        cases he
        exact Or.inl ⟨rfl, _, hob, hrl⟩
      | some bytes =>
        simp only
        have hd := deallocMemory_log G
          ⟨m, h.trace ++ [(⟨fn, args, some (r :: rest)⟩ : Event)]⟩ (resultPtrOf r) (resultLenOf r)
        refine ⟨fun hn => hd.1 (noEval_append_single _ _ hn hne), ?_, by intro e he; cases he⟩
        intro b _
        refine ⟨(resultPtrOf r, resultLenOf r), ?_, ?_⟩
        · rw [hd.2.1, hob]
        · rw [hd.2.2, hrl]

theorem balanced_of_eq {t t2 : List Event} {d : List (Nat × Nat)} (hb : Balanced t d)
    (ho : obtained t2 = obtained t) (hr : released t2 = released t) : Balanced t2 d := by
  unfold Balanced at *; rw [ho, hr]; exact hb

theorem balanced_obtain {t t2 : List Event} {d : List (Nat × Nat)} {r : Nat × Nat}
    (hb : Balanced t d) (ho : obtained t2 = obtained t ++ [r]) (hr : released t2 = released t) :
    Balanced t2 (r :: d) := by
  unfold Balanced at *
  rw [ho, hr, List.perm_iff_count]
  intro a
  have := List.perm_iff_count.mp hb a
  simp only [List.count_append, List.count_cons, List.count_nil] at this ⊢
  omega

theorem balanced_both {t t2 : List Event} {d : List (Nat × Nat)} {r : Nat × Nat}
    (hb : Balanced t d) (ho : obtained t2 = obtained t ++ [r])
    (hr : released t2 = released t ++ [r]) : Balanced t2 d := by
  unfold Balanced at *
  rw [ho, hr, List.perm_iff_count]
  intro a
  have := List.perm_iff_count.mp hb a
  simp only [List.count_append, List.count_cons, List.count_nil] at this ⊢
  omega

theorem balancedBut_obtain {t t2 : List Event} {d : List (Nat × Nat)} {r : Nat × Nat}
    (hb : Balanced t d) (ho : obtained t2 = obtained t ++ [r]) (hr : released t2 = released t) :
    BalancedBut t2 d := by
  refine ⟨r, ?_⟩
  unfold Balanced at *
  rw [ho, hr, List.perm_iff_count]
  intro a
  have := List.perm_iff_count.mp hb a
  simp only [List.count_append, List.count_cons, List.count_nil] at this ⊢
  omega

theorem encodeUTxO_log {σ : Type} (G : Guest σ) (C : Codec) (s : LoopState σ) (u : ApolloUTxO)
    (hn : noEval s.host.trace) (hb : Balanced s.host.trace s.deferred) :
    match encodeUTxO G C s u with
    | .ok s2 => noEval s2.host.trace ∧ Balanced s2.host.trace s2.deferred
    | .error (o, s2) => noEval s2.host.trace ∧ LoopExit o s2 := by
  unfold encodeUTxO
  simp only
  cases C.marshalUTxO (prepareUTxO u (prepareAssetMap u)) with
  | none => exact ⟨hn, hb⟩
  | some utxoCbor =>
    simp only
    have hw := writeToMemory_log G s.host utxoCbor
    rcases hwe : writeToMemory G s.host utxoCbor with ⟨w, h1⟩
    rw [hwe] at hw
    cases w with
    | fatal => exact ⟨hw.1 hn, trivial⟩
    | panic => exact ⟨hw.1 hn, trivial⟩
    | done utxoPtr utxoLen =>
      simp only
      have hw2 := hw.2 utxoPtr utxoLen rfl
      have hb1 : Balanced h1.trace ((utxoPtr, utxoLen) :: s.deferred) :=
        balanced_obtain hb hw2.1 hw2.2
      have hn1 : noEval h1.trace := hw.1 hn
      have hc := callFunction_log G .utxoToInputBytes [utxoPtr, utxoLen] h1 (Or.inl rfl)
      rcases hce : callFunction G .utxoToInputBytes [utxoPtr, utxoLen] h1 with ⟨c, h2⟩
      rw [hce] at hc
      cases c with
      | error e =>
        simp only
        refine ⟨hc.1 hn1, ?_⟩
        rcases hc.2.2 e rfl with ⟨he, region, ho, hr⟩ | ⟨he, ho, hr⟩
        · subst he
          exact balancedBut_obtain hb1 ho hr
        · have := balanced_of_eq hb1 ho hr
          rcases he with he | he <;> subst he <;> exact this
      | ok inputUtxoBytes =>
        simp only
        obtain ⟨region, ho, hr⟩ := hc.2.1 inputUtxoBytes rfl
        have hb2 : Balanced h2.trace ((utxoPtr, utxoLen) :: s.deferred) := balanced_both hb1 ho hr
        have hn2 : noEval h2.trace := hc.1 hn1
        have hc2 := callFunction_log G .utxoToOutputBytes [utxoPtr, utxoLen] h2 (Or.inr rfl)
        rcases hce2 : callFunction G .utxoToOutputBytes [utxoPtr, utxoLen] h2 with ⟨c2, h3⟩
        rw [hce2] at hc2
        cases c2 with
        | error e =>
          simp only
          refine ⟨hc2.1 hn2, ?_⟩
          rcases hc2.2.2 e rfl with ⟨he, region, ho, hr⟩ | ⟨he, ho, hr⟩
          · subst he
            exact balancedBut_obtain hb2 ho hr
          · have := balanced_of_eq hb2 ho hr
            rcases he with he | he <;> subst he <;> exact this
        | ok outputUtxoBytes =>
          simp only
          obtain ⟨region2, ho2, hr2⟩ := hc2.2.1 outputUtxoBytes rfl
          exact ⟨hc2.1 hn2, balanced_both hb2 ho2 hr2⟩

theorem processInputs_log {σ : Type} (G : Guest σ) (C : Codec) (utxoMap : GoMap String ApolloUTxO)
    (inputs : List TransactionInput) :
    ∀ (s : LoopState σ), noEval s.host.trace → Balanced s.host.trace s.deferred →
      match processInputs G C utxoMap inputs s with
      | .ok s2 => noEval s2.host.trace ∧ Balanced s2.host.trace s2.deferred
      | .error (o, s2) => noEval s2.host.trace ∧ LoopExit o s2 := by
  induction inputs with
  | nil => intro s hn hb; exact ⟨hn, hb⟩
  | cons i inputs ih =>
    intro s hn hb
    unfold processInputs
    rw [List.foldlM_cons]
    have hstep : match processInput G C utxoMap s i with
        | .ok s2 => noEval s2.host.trace ∧ Balanced s2.host.trace s2.deferred
        | .error (o, s2) => noEval s2.host.trace ∧ LoopExit o s2 := by
      unfold processInput
      simp only
      cases utxoMap.get? (utxoKey i) with
      | none => exact ⟨hn, hb⟩
      | some u => exact encodeUTxO_log G C s u hn hb
    cases hp : processInput G C utxoMap s i with
    | error os =>
      rw [hp] at hstep
      exact hstep
    | ok s2 =>
      rw [hp] at hstep
      exact ih s2 hstep.1 hstep.2

theorem exitWith_balanced {σ : Type} (G : Guest σ) (o : Outcome) (d : List (Nat × Nat))
    (h : Host σ) (hb : Balanced h.trace d)
    (h1 : o ≠ .err .readFunctionResult) (h2 : o ≠ .err .readResult) :
    Settled (exitWith G o d h).1 (exitWith G o d h).2.trace := by
  have hr := runDeferred_log G d h
  have hp : (obtained (runDeferred G d h).trace).Perm (released (runDeferred G d h).trace) := by
    rw [hr.2.1, hr.2.2]; exact hb
  cases o with
  | ok r => exact hp
  | fatal => trivial
  | panic => trivial
  | err e =>
    cases e <;> first | exact hp | exact absurd rfl h1 | exact absurd rfl h2

theorem exitWith_balancedBut {σ : Type} (G : Guest σ) (o : Outcome) (d : List (Nat × Nat))
    (h : Host σ) (hb : BalancedBut h.trace d)
    (ho : o = .err .readFunctionResult ∨ o = .err .readResult) :
    Settled (exitWith G o d h).1 (exitWith G o d h).2.trace := by
  have hr := runDeferred_log G d h
  have hp : ∃ region, (obtained (runDeferred G d h).trace).Perm
      (region :: released (runDeferred G d h).trace) := by
    obtain ⟨region, hreg⟩ := hb
    refine ⟨region, ?_⟩
    rw [hr.2.1, hr.2.2]; exact hreg
  rcases ho with e | e <;> subst e <;> exact hp

theorem decodeVerdict_kind (C : Codec) (b : Bytes) :
    decodeVerdict C b ≠ .err .readFunctionResult ∧ decodeVerdict C b ≠ .err .readResult ∧
    decodeVerdict C b ≠ .fatal ∧ decodeVerdict C b ≠ .panic := by
  unfold decodeVerdict
  cases b with
  | nil => simp
  | cons tag rest =>
    simp only
    split
    · cases C.decodeRedeemers rest <;> simp
    · cases C.decodeEvalError rest <;> simp

theorem readVerdict_settled {σ : Type} (G : Guest σ) (C : Codec) (d : List (Nat × Nat)) (r : Nat)
    (h : Host σ) (hb : Balanced h.trace ((resultPtrOf r, resultLenOf r) :: d)) :
    Settled (readVerdict G C d r h).1 (readVerdict G C d r h).2.trace := by
  unfold readVerdict
  simp only
  cases G.read h.mem (resultPtrOf r) (resultLenOf r) with
  | none =>
    simp only
    apply exitWith_balancedBut G _ d h _ (Or.inr rfl)
    exact ⟨_, hb.trans List.perm_middle⟩
  | some resultBytes =>
    simp only
    have hk := decodeVerdict_kind C resultBytes
    exact exitWith_balanced G _ _ h hb hk.1 hk.2.1

theorem guestCall_eval_log {σ : Type} (G : Guest σ) (args : List Nat) (h : Host σ) :
    (∀ r rest, (guestCall G .evalPhaseTwoRaw args h).1 = some (r :: rest) →
      obtained (guestCall G .evalPhaseTwoRaw args h).2.trace
        = obtained h.trace ++ [(resultPtrOf r, resultLenOf r)]) ∧
    (((guestCall G .evalPhaseTwoRaw args h).1 = none ∨
        (guestCall G .evalPhaseTwoRaw args h).1 = some []) →
      obtained (guestCall G .evalPhaseTwoRaw args h).2.trace = obtained h.trace) ∧
    released (guestCall G .evalPhaseTwoRaw args h).2.trace = released h.trace := by
  unfold guestCall
  simp only
  refine ⟨?_, ?_, ?_⟩
  · intro r rest hr
    rw [hr]
    simp [obtained_append, obtained, Event.obtains]
  · intro hr
    rcases hr with hr | hr <;> rw [hr] <;> simp [obtained_append, obtained, Event.obtains]
  · simp [released_append, released, Event.releases]

theorem evaluateTail_settled {σ : Type} (G : Guest σ) (C : Codec) (config : EvaluatorConfig)
    (txBytes : Bytes) (s : LoopState σ) (hb : Balanced s.host.trace s.deferred) :
    Settled (evaluateTail G C config txBytes s).1 (evaluateTail G C config txBytes s).2.trace := by
  unfold evaluateTail
  cases serializeUTxOs s.inputBytes s.outputBytes with
  | none => exact trivial
  | some frame =>
    simp only
    have hw1 := writeToMemory_log G s.host txBytes
    rcases hwe1 : writeToMemory G s.host txBytes with ⟨w1, h1⟩
    rw [hwe1] at hw1
    cases w1 with
    | fatal => exact trivial
    | panic => exact trivial
    | done txPtr txLen =>
      simp only
      have hb1 := balanced_obtain hb (hw1.2 _ _ rfl).1 (hw1.2 _ _ rfl).2
      have hw2 := writeToMemory_log G h1 frame
      rcases hwe2 : writeToMemory G h1 frame with ⟨w2, h2⟩
      rw [hwe2] at hw2
      cases w2 with
      | fatal => exact trivial
      | panic => exact trivial
      | done utxosPtr utxosLen =>
        simp only
        have hb2 := balanced_obtain hb1 (hw2.2 _ _ rfl).1 (hw2.2 _ _ rfl).2
        have hw3 := writeToMemory_log G h2 config.CostModels
        rcases hwe3 : writeToMemory G h2 config.CostModels with ⟨w3, h3⟩
        rw [hwe3] at hw3
        cases w3 with
        | fatal => exact trivial
        | panic => exact trivial
        | done costModelsPtr costModelsLen =>
          simp only
          have hb3 := balanced_obtain hb2 (hw3.2 _ _ rfl).1 (hw3.2 _ _ rfl).2
          generalize [txPtr, txLen, utxosPtr, utxosLen, costModelsPtr, costModelsLen,
            config.MaxTxExSteps, config.MaxTxExMem, config.ZeroTime, config.ZeroSlot,
            config.SlotLength] = args
          have hg := guestCall_eval_log G args h3
          rcases hge : guestCall G .evalPhaseTwoRaw args h3 with ⟨res, h4⟩
          rw [hge] at hg
          cases res with
          | none =>
            simp only
            exact exitWith_balanced G _ _ h4 (balanced_of_eq hb3 (hg.2.1 (Or.inl rfl)) hg.2.2)
              (by simp) (by simp)
          | some rs =>
            cases rs with
            | nil => exact trivial
            | cons r rest =>
              simp only
              exact readVerdict_settled G C _ r h4 (balanced_obtain hb3 (hg.1 r rest rfl) hg.2.2)

theorem loopExit_settled {σ : Type} (G : Guest σ) (o : Outcome) (s : LoopState σ)
    (hx : LoopExit o s) :
    Settled (exitWith G o s.deferred s.host).1 (exitWith G o s.deferred s.host).2.trace := by
  cases o with
  | ok r => exact absurd hx (by simp [LoopExit])
  | fatal => trivial
  | panic => trivial
  | err e =>
    by_cases h1 : e = .readFunctionResult
    · subst h1
      exact exitWith_balancedBut G _ _ _ hx (Or.inl rfl)
    · by_cases h2 : e = .readResult
      · subst h2
        exact absurd hx (by simp [LoopExit])
      · have hb : Balanced s.host.trace s.deferred := by
          cases e <;> first | exact hx | exact absurd rfl h1 | exact absurd rfl h2
        exact exitWith_balanced G _ _ _ hb (by simpa using h1) (by simpa using h2)

theorem Evaluate_settled {σ : Type} (G : Guest σ) (C : Codec) (config : EvaluatorConfig)
    (txBytes : Bytes) (utxos : List ApolloUTxO) (m : σ) :
    Settled (Evaluate G C config txBytes utxos ⟨m, []⟩).1
      (Evaluate G C config txBytes utxos ⟨m, []⟩).2.trace := by
  unfold Evaluate
  cases C.decodeTx txBytes with
  | none => simp [Settled, obtained, released]
  | some tx =>
    simp only
    have hl := processInputs_log G C (buildUtxoMap utxos) tx.Inputs ⟨⟨m, []⟩, [], [], []⟩
      (by intro e he; cases he) (by simp [Balanced, obtained, released])
    cases hp : processInputs G C (buildUtxoMap utxos) tx.Inputs ⟨⟨m, []⟩, [], [], []⟩ with
    | error os =>
      rw [hp] at hl
      exact loopExit_settled G os.1 os.2 hl.2
    | ok s =>
      rw [hp] at hl
      exact evaluateTail_settled G C config txBytes s hl.2

/-- C4, amended: whenever `Evaluate` returns, with a redeemer list or with an error,
every guest region obtained during the run was passed to `dealloc` exactly once with
the same pointer and length, except that a result region whose read from guest memory
failed is not released (all the others still are); the same holds of `callFunction`. -/
theorem Evaluate_releases_regions {σ : Type} (G : Guest σ) (C : Codec) (config : EvaluatorConfig)
    (txBytes : Bytes) (utxos : List ApolloUTxO) (m : σ) :
    (∀ redeemers, (Evaluate G C config txBytes utxos ⟨m, []⟩).1 = .ok redeemers →
      (obtained (Evaluate G C config txBytes utxos ⟨m, []⟩).2.trace).Perm
        (released (Evaluate G C config txBytes utxos ⟨m, []⟩).2.trace)) ∧
    (∀ e, (Evaluate G C config txBytes utxos ⟨m, []⟩).1 = .err e →
      e ≠ .readFunctionResult → e ≠ .readResult →
      (obtained (Evaluate G C config txBytes utxos ⟨m, []⟩).2.trace).Perm
        (released (Evaluate G C config txBytes utxos ⟨m, []⟩).2.trace)) ∧
    (∀ e, (Evaluate G C config txBytes utxos ⟨m, []⟩).1 = .err e →
      e = .readFunctionResult ∨ e = .readResult →
      ∃ region, (obtained (Evaluate G C config txBytes utxos ⟨m, []⟩).2.trace).Perm
        (region :: released (Evaluate G C config txBytes utxos ⟨m, []⟩).2.trace)) ∧
    (∀ fn args, isRecordFn fn →
      (∀ b, (callFunction G fn args ⟨m, []⟩).1 = .ok b →
        ∃ region, obtained (callFunction G fn args ⟨m, []⟩).2.trace = [region] ∧
          released (callFunction G fn args ⟨m, []⟩).2.trace = [region]) ∧
      ((callFunction G fn args ⟨m, []⟩).1 = .error .readFunctionResult →
        ∃ region, obtained (callFunction G fn args ⟨m, []⟩).2.trace = [region] ∧
          released (callFunction G fn args ⟨m, []⟩).2.trace = []) ∧
      (∀ e, (callFunction G fn args ⟨m, []⟩).1 = .error e → e ≠ .readFunctionResult →
        obtained (callFunction G fn args ⟨m, []⟩).2.trace = [] ∧
          released (callFunction G fn args ⟨m, []⟩).2.trace = [])) := by
  have hs := Evaluate_settled G C config txBytes utxos m
  refine ⟨?_, ?_, ?_, ?_⟩
  · intro r hr
    rw [hr] at hs
    exact hs
  · intro e he h1 h2
    rw [he] at hs
    cases e <;> first | exact hs | exact absurd rfl h1 | exact absurd rfl h2
  · intro e he h12
    rw [he] at hs
    rcases h12 with h | h <;> subst h <;> exact hs
  · intro fn args hfn
    have hc := callFunction_log G fn args ⟨m, []⟩ hfn
    refine ⟨?_, ?_, ?_⟩
    · intro b hb
      obtain ⟨region, ho, hr⟩ := hc.2.1 b hb
      exact ⟨region, by simpa [obtained] using ho, by simpa [released] using hr⟩
    · intro he
      rcases hc.2.2 _ he with ⟨_, region, ho, hr⟩ | ⟨h, _, _⟩
      · exact ⟨region, by simpa [obtained] using ho, by simpa [released] using hr⟩
      · rcases h with h | h <;> cases h
    · intro e he hne
      rcases hc.2.2 _ he with ⟨h, _⟩ | ⟨_, ho, hr⟩
      · exact absurd h hne
      · exact ⟨by simpa [obtained] using ho, by simpa [released] using hr⟩

theorem Evaluate_releases_regions_witness :
    (obtained (Evaluate toyGuest toyCodec toyConfig [7] [toyUTxO 7 5] toyHost).2.trace).Perm
      (released (Evaluate toyGuest toyCodec toyConfig [7] [toyUTxO 7 5] toyHost).2.trace) :=
  (Evaluate_releases_regions toyGuest toyCodec toyConfig [7] [toyUTxO 7 5] ⟨1, []⟩).1
    [[1, 0, 0, 0, 0, 0, 0, 0, 2, 0, 0, 0, 0, 0, 0, 0, 1, 5, 2, 0, 0, 0, 0, 0, 0, 0, 2, 5]]
    (by decide)

/-- C4 as stated fails: the read of the first input record fails, `Evaluate` returns
that error, and the result region `(3, 2)` it obtained is never passed to `dealloc`. -/
theorem Evaluate_unread_region_kept :
    (Evaluate unreadableGuest toyCodec toyConfig [7] [toyUTxO 7 5] toyHost).1
      = .err .readFunctionResult ∧
    obtained (Evaluate unreadableGuest toyCodec toyConfig [7] [toyUTxO 7 5] toyHost).2.trace
      = [(1, 1), (3, 2)] ∧
    released (Evaluate unreadableGuest toyCodec toyConfig [7] [toyUTxO 7 5] toyHost).2.trace
      = [(1, 1)] := by
  decide

theorem allocOk_append_single (t : List Event) (e : Event) (h : allocOk t)
    (he : e.fn = GuestFn.alloc → e.result ≠ none) : allocOk (t ++ [e]) := by
  intro x hx
  rcases List.mem_append.mp hx with hx | hx
  · exact h x hx
  · rw [List.mem_singleton.mp hx]; exact he

theorem guestCall_allocOk {σ : Type} (G : Guest σ) (fn : GuestFn) (args : List Nat) (h : Host σ)
    (hfn : fn ≠ .alloc) (ha : allocOk h.trace) : allocOk (guestCall G fn args h).2.trace := by
  unfold guestCall
  exact allocOk_append_single _ _ ha (fun e => absurd e hfn)

theorem writeToMemory_allocOk {σ : Type} (G : Guest σ) (h : Host σ) (data : Bytes)
    (ha : allocOk h.trace) :
    (writeToMemory G h data).1 = .fatal ∨ allocOk (writeToMemory G h data).2.trace := by
  unfold writeToMemory guestCall
  rcases hc : G.call GuestFn.alloc [data.length] h.mem with ⟨res, m⟩
  cases res with
  | none => exact Or.inl rfl
  | some rs =>
    cases rs with
    | nil => exact Or.inr (allocOk_append_single _ _ ha (by simp))
    | cons ptr rest =>
      simp only
      cases G.write m (ptr % 2 ^ 32) data with
      | none => exact Or.inl rfl
      | some m2 => exact Or.inr (allocOk_append_single _ _ ha (by simp))

theorem deallocMemory_allocOk {σ : Type} (G : Guest σ) (h : Host σ) (ptr size : Nat)
    (ha : allocOk h.trace) : allocOk (deallocMemory G h ptr size).trace :=
  guestCall_allocOk G .dealloc _ h (by decide) ha

theorem runDeferred_allocOk {σ : Type} (G : Guest σ) (deferred : List (Nat × Nat)) :
    ∀ (h : Host σ), allocOk h.trace → allocOk (runDeferred G deferred h).trace := by
  induction deferred with
  | nil => intro h ha; exact ha
  | cons d deferred ih =>
    intro h ha
    exact ih _ (deallocMemory_allocOk G h d.1 d.2 ha)

theorem callFunction_allocOk {σ : Type} (G : Guest σ) (fn : GuestFn) (args : List Nat)
    (h : Host σ) (hfn : fn ≠ .alloc) (ha : allocOk h.trace) :
    allocOk (callFunction G fn args h).2.trace := by
  have hg := guestCall_allocOk G fn args h hfn ha
  unfold callFunction
  rcases hc : guestCall G fn args h with ⟨res, h1⟩
  rw [hc] at hg
  cases res with
  | none => exact hg
  | some rs =>
    cases rs with
    | nil => exact hg
    | cons r rest =>
      simp only
      cases G.read h1.mem (resultPtrOf r) (resultLenOf r) with
      | none => exact hg
      | some b => exact deallocMemory_allocOk G h1 _ _ hg

theorem exitWith_allocOk {σ : Type} (G : Guest σ) (o : Outcome) (d : List (Nat × Nat))
    (h : Host σ) (ha : o = .fatal ∨ allocOk h.trace) :
    (exitWith G o d h).1 = .fatal ∨ allocOk (exitWith G o d h).2.trace := by
  cases o with
  | fatal => exact Or.inl rfl
  | ok r =>
    rcases ha with ha | ha
    · cases ha
    · exact Or.inr (runDeferred_allocOk G d h ha)
  | err e =>
    rcases ha with ha | ha
    · cases ha
    · exact Or.inr (runDeferred_allocOk G d h ha)
  | panic =>
    rcases ha with ha | ha
    · cases ha
    · exact Or.inr (runDeferred_allocOk G d h ha)

theorem encodeUTxO_allocOk {σ : Type} (G : Guest σ) (C : Codec) (s : LoopState σ) (u : ApolloUTxO)
    (ha : allocOk s.host.trace) :
    match encodeUTxO G C s u with
    | .ok s2 => allocOk s2.host.trace
    | .error (o, s2) => o = .fatal ∨ allocOk s2.host.trace := by
  unfold encodeUTxO
  simp only
  cases C.marshalUTxO (prepareUTxO u (prepareAssetMap u)) with
  | none => exact Or.inr ha
  | some utxoCbor =>
    simp only
    have hw := writeToMemory_allocOk G s.host utxoCbor ha
    rcases hwe : writeToMemory G s.host utxoCbor with ⟨w, h1⟩
    rw [hwe] at hw
    cases w with
    | fatal => exact Or.inl rfl
    | panic => exact Or.inr (hw.resolve_left (by simp))
    | done utxoPtr utxoLen =>
      simp only
      have ha1 : allocOk h1.trace := hw.resolve_left (by simp)
      have hc := callFunction_allocOk G .utxoToInputBytes [utxoPtr, utxoLen] h1 (by decide) ha1
      rcases hce : callFunction G .utxoToInputBytes [utxoPtr, utxoLen] h1 with ⟨c, h2⟩
      rw [hce] at hc
      cases c with
      | error e => exact Or.inr hc
      | ok inputUtxoBytes =>
        simp only
        have hc2 := callFunction_allocOk G .utxoToOutputBytes [utxoPtr, utxoLen] h2 (by decide) hc
        rcases hce2 : callFunction G .utxoToOutputBytes [utxoPtr, utxoLen] h2 with ⟨c2, h3⟩
        rw [hce2] at hc2
        cases c2 with
        | error e => exact Or.inr hc2
        | ok outputUtxoBytes => exact hc2

theorem processInputs_allocOk {σ : Type} (G : Guest σ) (C : Codec)
    (utxoMap : GoMap String ApolloUTxO) (inputs : List TransactionInput) :
    ∀ (s : LoopState σ), allocOk s.host.trace →
      match processInputs G C utxoMap inputs s with
      | .ok s2 => allocOk s2.host.trace
      | .error (o, s2) => o = .fatal ∨ allocOk s2.host.trace := by
  induction inputs with
  | nil => intro s ha; exact ha
  | cons i inputs ih =>
    intro s ha
    unfold processInputs
    rw [List.foldlM_cons]
    have hstep : match processInput G C utxoMap s i with
        | .ok s2 => allocOk s2.host.trace
        | .error (o, s2) => o = .fatal ∨ allocOk s2.host.trace := by
      unfold processInput
      simp only
      cases utxoMap.get? (utxoKey i) with
      | none => exact Or.inr ha
      | some u => exact encodeUTxO_allocOk G C s u ha
    cases hp : processInput G C utxoMap s i with
    | error os =>
      rw [hp] at hstep
      exact hstep
    | ok s2 =>
      rw [hp] at hstep
      exact ih s2 hstep

theorem evaluateTail_allocOk {σ : Type} (G : Guest σ) (C : Codec) (config : EvaluatorConfig)
    (txBytes : Bytes) (s : LoopState σ) (ha : allocOk s.host.trace) :
    (evaluateTail G C config txBytes s).1 = .fatal ∨
      allocOk (evaluateTail G C config txBytes s).2.trace := by
  unfold evaluateTail
  cases serializeUTxOs s.inputBytes s.outputBytes with
  | none => exact exitWith_allocOk G _ _ _ (Or.inr ha)
  | some frame =>
    simp only
    have hw1 := writeToMemory_allocOk G s.host txBytes ha
    rcases hwe1 : writeToMemory G s.host txBytes with ⟨w1, h1⟩
    rw [hwe1] at hw1
    cases w1 with
    | fatal => exact Or.inl rfl
    | panic => exact exitWith_allocOk G _ _ _ (Or.inr (hw1.resolve_left (by simp)))
    | done txPtr txLen =>
      simp only
      have hw2 := writeToMemory_allocOk G h1 frame (hw1.resolve_left (by simp))
      rcases hwe2 : writeToMemory G h1 frame with ⟨w2, h2⟩
      rw [hwe2] at hw2
      cases w2 with
      | fatal => exact Or.inl rfl
      | panic => exact exitWith_allocOk G _ _ _ (Or.inr (hw2.resolve_left (by simp)))
      | done utxosPtr utxosLen =>
        simp only
        have hw3 := writeToMemory_allocOk G h2 config.CostModels (hw2.resolve_left (by simp))
        rcases hwe3 : writeToMemory G h2 config.CostModels with ⟨w3, h3⟩
        rw [hwe3] at hw3
        cases w3 with
        | fatal => exact Or.inl rfl
        | panic => exact exitWith_allocOk G _ _ _ (Or.inr (hw3.resolve_left (by simp)))
        | done costModelsPtr costModelsLen =>
          simp only
          generalize [txPtr, txLen, utxosPtr, utxosLen, costModelsPtr, costModelsLen,
            config.MaxTxExSteps, config.MaxTxExMem, config.ZeroTime, config.ZeroSlot,
            config.SlotLength] = args
          have hg := guestCall_allocOk G .evalPhaseTwoRaw args h3 (by decide)
            (hw3.resolve_left (by simp))
          rcases hge : guestCall G .evalPhaseTwoRaw args h3 with ⟨res, h4⟩
          rw [hge] at hg
          cases res with
          | none => exact exitWith_allocOk G _ _ _ (Or.inr hg)
          | some rs =>
            cases rs with
            | nil => exact exitWith_allocOk G _ _ _ (Or.inr hg)
            | cons r rest =>
              simp only
              unfold readVerdict
              simp only
              cases G.read h4.mem (resultPtrOf r) (resultLenOf r) with
              | none => exact exitWith_allocOk G _ _ _ (Or.inr hg)
              | some b => exact exitWith_allocOk G _ _ _ (Or.inr hg)

theorem Evaluate_allocOk {σ : Type} (G : Guest σ) (C : Codec) (config : EvaluatorConfig)
    (txBytes : Bytes) (utxos : List ApolloUTxO) (m : σ) :
    (Evaluate G C config txBytes utxos ⟨m, []⟩).1 = .fatal ∨
      allocOk (Evaluate G C config txBytes utxos ⟨m, []⟩).2.trace := by
  have h0 : allocOk ([] : List Event) := by intro e he; cases he
  unfold Evaluate
  cases C.decodeTx txBytes with
  | none => exact Or.inr h0
  | some tx =>
    simp only
    have hl := processInputs_allocOk G C (buildUtxoMap utxos) tx.Inputs ⟨⟨m, []⟩, [], [], []⟩ h0
    cases hp : processInputs G C (buildUtxoMap utxos) tx.Inputs ⟨⟨m, []⟩, [], [], []⟩ with
    | error os =>
      rw [hp] at hl
      exact exitWith_allocOk G os.1 os.2.deferred os.2.host hl
    | ok s =>
      rw [hp] at hl
      exact evaluateTail_allocOk G C config txBytes s hl

/-- C6, amended: when the guest `alloc` call fails, or the write into guest memory is
refused, `writeToMemory` returns no error value: it ends the host process in
`log.Fatalf`, and a run of `Evaluate` in which an `alloc` call failed ends the same
way.  A null pointer from `alloc` is not rejected: when the write at offset 0
succeeds, `writeToMemory` succeeds with pointer 0. -/
theorem writeToMemory_failure_is_fatal {σ : Type} (G : Guest σ) (C : Codec)
    (config : EvaluatorConfig) (txBytes : Bytes) (utxos : List ApolloUTxO) (m : σ) :
    (∀ (h : Host σ) (data : Bytes), (guestCall G .alloc [data.length] h).1 = none →
      writeToMemory G h data = (.fatal, (guestCall G .alloc [data.length] h).2)) ∧
    (∀ (h : Host σ) (data : Bytes) (ptr : Nat) (rest : List Nat),
      (guestCall G .alloc [data.length] h).1 = some (ptr :: rest) →
      G.write (guestCall G .alloc [data.length] h).2.mem (ptr % 2 ^ 32) data = none →
      writeToMemory G h data = (.fatal, (guestCall G .alloc [data.length] h).2)) ∧
    (∀ (h : Host σ) (data : Bytes) (rest : List Nat) (m2 : σ),
      (guestCall G .alloc [data.length] h).1 = some (0 :: rest) →
      G.write (guestCall G .alloc [data.length] h).2.mem 0 data = some m2 →
      (writeToMemory G h data).1 = .done 0 data.length) ∧
    (∀ e ∈ (Evaluate G C config txBytes utxos ⟨m, []⟩).2.trace,
      e.fn = .alloc → e.result = none →
      (Evaluate G C config txBytes utxos ⟨m, []⟩).1 = .fatal) := by
  refine ⟨?_, ?_, ?_, ?_⟩
  · intro h data hc
    unfold writeToMemory
    rcases hg : guestCall G .alloc [data.length] h with ⟨res, h1⟩
    rw [hg] at hc
    simp only at hc
    subst hc
    rfl
  · intro h data ptr rest hc hw
    unfold writeToMemory
    rcases hg : guestCall G .alloc [data.length] h with ⟨res, h1⟩
    rw [hg] at hc hw
    simp only at hc hw
    subst hc
    simp only [hw]
  · intro h data rest m2 hc hw
    unfold writeToMemory
    rcases hg : guestCall G .alloc [data.length] h with ⟨res, h1⟩
    rw [hg] at hc hw
    simp only at hc hw
    subst hc
    have hw0 : G.write h1.mem (0 % 2 ^ 32) data = some m2 := by simpa using hw
    simp only [hw0]
  · intro e he hfn hres
    rcases Evaluate_allocOk G C config txBytes utxos m with hf | hok
    · exact hf
    · exact absurd hres (hok e he hfn)

theorem writeToMemory_failure_is_fatal_witness :
    (Evaluate noAllocGuest toyCodec toyConfig [7] [toyUTxO 7 5] toyHost).1 = .fatal :=
  (writeToMemory_failure_is_fatal noAllocGuest toyCodec toyConfig [7] [toyUTxO 7 5]
    ⟨1, []⟩).2.2.2 ⟨.alloc, [1], none⟩ (by decide) rfl rfl

/-- C6 as stated fails: with an `alloc` that fails, `writeToMemory` and `Evaluate` end
in `log.Fatalf` instead of returning an error; and an `alloc` that returns pointer 0
makes `writeToMemory` succeed with that null pointer. -/
theorem writeToMemory_fatal_and_null :
    (writeToMemory noAllocGuest toyHost [1]).1 = .fatal ∧
    (Evaluate noAllocGuest toyCodec toyConfig [7] [toyUTxO 7 5] toyHost).1 = .fatal ∧
    (writeToMemory toyGuest ⟨⟨0, []⟩, []⟩ [1]).1 = .done 0 1 := by
  decide

theorem exitWith_fst {σ : Type} (G : Guest σ) (o : Outcome) (d : List (Nat × Nat)) (h : Host σ) :
    (exitWith G o d h).1 = o := by
  cases o <;> rfl

theorem exitWith_noEval {σ : Type} (G : Guest σ) (o : Outcome) (d : List (Nat × Nat)) (h : Host σ)
    (hn : noEval h.trace) : noEval (exitWith G o d h).2.trace := by
  cases o with
  | fatal => exact hn
  | ok r => exact (runDeferred_log G d h).1 hn
  | err e => exact (runDeferred_log G d h).1 hn
  | panic => exact (runDeferred_log G d h).1 hn

theorem decodeVerdict_cases (C : Codec) :
    decodeVerdict C [] = .err .emptyResult ∧
    (∀ rest redeemers, C.decodeRedeemers rest = some redeemers →
      decodeVerdict C (0 :: rest) = .ok redeemers) ∧
    (∀ tag rest evalError, tag ≠ 0 → C.decodeEvalError rest = some evalError →
      decodeVerdict C (tag :: rest) = .err (.evaluation evalError)) ∧
    (∀ rest, C.decodeRedeemers rest = none → decodeVerdict C (0 :: rest) = .err .resultDecode) ∧
    (∀ tag rest, tag ≠ 0 → C.decodeEvalError rest = none →
      decodeVerdict C (tag :: rest) = .err .resultDecode) := by
  refine ⟨rfl, ?_, ?_, ?_, ?_⟩
  · intro rest redeemers h
    simp [decodeVerdict, h]
  · intro tag rest evalError ht h
    simp [decodeVerdict, ht, h]
  · intro rest h
    simp [decodeVerdict, h]
  · intro tag rest ht h
    simp [decodeVerdict, ht, h]

theorem evaluateTail_reaches {σ : Type} (G : Guest σ) (C : Codec) (config : EvaluatorConfig)
    (txBytes : Bytes) (s : LoopState σ) (frame : Bytes)
    (txPtr txLen utxosPtr utxosLen costModelsPtr costModelsLen r : Nat) (rest : List Nat)
    (h1 h2 h3 h4 : Host σ)
    (hframe : serializeUTxOs s.inputBytes s.outputBytes = some frame)
    (hw1 : writeToMemory G s.host txBytes = (.done txPtr txLen, h1))
    (hw2 : writeToMemory G h1 frame = (.done utxosPtr utxosLen, h2))
    (hw3 : writeToMemory G h2 config.CostModels = (.done costModelsPtr costModelsLen, h3))
    (hcall : guestCall G .evalPhaseTwoRaw
      [txPtr, txLen, utxosPtr, utxosLen, costModelsPtr, costModelsLen,
       config.MaxTxExSteps, config.MaxTxExMem,
       config.ZeroTime, config.ZeroSlot, config.SlotLength] h3 = (some (r :: rest), h4)) :
    evaluateTail G C config txBytes s
      = readVerdict G C
          ((costModelsPtr, costModelsLen) :: (utxosPtr, utxosLen) :: (txPtr, txLen) :: s.deferred)
          r h4 := by
  unfold evaluateTail
  simp only [hframe, hw1, hw2, hw3, hcall]

theorem Evaluate_reaches {σ : Type} (G : Guest σ) (C : Codec) (config : EvaluatorConfig)
    (txBytes : Bytes) (utxos : List ApolloUTxO) (h : Host σ) (tx : Transaction)
    (s : LoopState σ)
    (hdec : C.decodeTx txBytes = some tx)
    (hloop : processInputs G C (buildUtxoMap utxos) tx.Inputs ⟨h, [], [], []⟩ = .ok s) :
    Evaluate G C config txBytes utxos h = evaluateTail G C config txBytes s := by
  unfold Evaluate
  simp only [hdec, hloop]

/-- C2: the verdict decoding of `Evaluate`.  In a run of `Evaluate` that gets as far as
reading the raw result `raw` of `eval_phase_two_raw`: an empty `raw` is the
empty-result error, whatever the decoders are; when byte 0 is 0 the remaining bytes
go to the redeemer-list decoder and `Evaluate` returns its list as it is; when byte 0
is not 0 the remaining bytes go to the error-record decoder and `Evaluate` returns an
`EvaluationError` with exactly that record; a payload that does not decode is an
error of its own kind; and the result region is released with the deferred calls. -/
theorem Evaluate_verdict_by_tag {σ : Type} (G : Guest σ) (C : Codec) (config : EvaluatorConfig)
    (txBytes : Bytes) (utxos : List ApolloUTxO) (h : Host σ) (tx : Transaction)
    (s : LoopState σ) (frame : Bytes)
    (txPtr txLen utxosPtr utxosLen costModelsPtr costModelsLen r : Nat) (rest : List Nat)
    (h1 h2 h3 h4 : Host σ) (raw : Bytes)
    (hdec : C.decodeTx txBytes = some tx)
    (hloop : processInputs G C (buildUtxoMap utxos) tx.Inputs ⟨h, [], [], []⟩ = .ok s)
    (hframe : serializeUTxOs s.inputBytes s.outputBytes = some frame)
    (hw1 : writeToMemory G s.host txBytes = (.done txPtr txLen, h1))
    (hw2 : writeToMemory G h1 frame = (.done utxosPtr utxosLen, h2))
    (hw3 : writeToMemory G h2 config.CostModels = (.done costModelsPtr costModelsLen, h3))
    (hcall : guestCall G .evalPhaseTwoRaw
      [txPtr, txLen, utxosPtr, utxosLen, costModelsPtr, costModelsLen,
       config.MaxTxExSteps, config.MaxTxExMem,
       config.ZeroTime, config.ZeroSlot, config.SlotLength] h3 = (some (r :: rest), h4))
    (hread : G.read h4.mem (resultPtrOf r) (resultLenOf r) = some raw) :
    (raw = [] → (Evaluate G C config txBytes utxos h).1 = .err .emptyResult) ∧
    (∀ payload redeemers, raw = 0 :: payload → C.decodeRedeemers payload = some redeemers →
      (Evaluate G C config txBytes utxos h).1 = .ok redeemers) ∧
    (∀ tag payload evalError, raw = tag :: payload → tag ≠ 0 →
      C.decodeEvalError payload = some evalError →
      (Evaluate G C config txBytes utxos h).1 = .err (.evaluation evalError)) ∧
    (∀ payload, raw = 0 :: payload → C.decodeRedeemers payload = none →
      (Evaluate G C config txBytes utxos h).1 = .err .resultDecode) ∧
    (∀ tag payload, raw = tag :: payload → tag ≠ 0 → C.decodeEvalError payload = none →
      (Evaluate G C config txBytes utxos h).1 = .err .resultDecode) ∧
    (Evaluate G C config txBytes utxos h).2
      = runDeferred G
          ((resultPtrOf r, resultLenOf r) :: (costModelsPtr, costModelsLen)
            :: (utxosPtr, utxosLen) :: (txPtr, txLen) :: s.deferred) h4 := by
  have heq : Evaluate G C config txBytes utxos h
      = exitWith G (decodeVerdict C raw)
          ((resultPtrOf r, resultLenOf r) :: (costModelsPtr, costModelsLen)
            :: (utxosPtr, utxosLen) :: (txPtr, txLen) :: s.deferred) h4 := by
    rw [Evaluate_reaches G C config txBytes utxos h tx s hdec hloop,
      evaluateTail_reaches G C config txBytes s frame txPtr txLen utxosPtr utxosLen
        costModelsPtr costModelsLen r rest h1 h2 h3 h4 hframe hw1 hw2 hw3 hcall]
    unfold readVerdict
    simp only [hread]
  have hfst : (Evaluate G C config txBytes utxos h).1 = decodeVerdict C raw := by
    rw [heq]; exact exitWith_fst G _ _ h4
  have hd := decodeVerdict_cases C
  refine ⟨?_, ?_, ?_, ?_, ?_, ?_⟩
  · intro hr
    rw [hfst, hr]; exact hd.1
  · intro payload redeemers hr hp
    rw [hfst, hr]; exact hd.2.1 payload redeemers hp
  · intro tag payload evalError hr ht hp
    rw [hfst, hr]; exact hd.2.2.1 tag payload evalError ht hp
  · intro payload hr hp
    rw [hfst, hr]; exact hd.2.2.2.1 payload hp
  · intro tag payload hr ht hp
    rw [hfst, hr]; exact hd.2.2.2.2 tag payload ht hp
  · rw [heq]
    have hk := decodeVerdict_kind C raw
    cases hv : decodeVerdict C raw with
    | fatal => exact absurd hv hk.2.2.1
    | ok x => rfl
    | err e => rfl
    | panic => rfl

theorem Evaluate_verdict_by_tag_witness :
    (Evaluate toyGuest toyCodec toyConfig [7] [toyUTxO 7 5] toyHost).1
      = .ok [[1, 0, 0, 0, 0, 0, 0, 0, 2, 0, 0, 0, 0, 0, 0, 0, 1, 5,
              2, 0, 0, 0, 0, 0, 0, 0, 2, 5]] ∧
    (Evaluate failGuest toyCodec toyConfig [7] [toyUTxO 7 5] toyHost).1
      = .err (.evaluation ⟨"failed", ⟨0, 0⟩, []⟩) :=
  ⟨(Evaluate_verdict_by_tag toyGuest toyCodec toyConfig [7] [toyUTxO 7 5] toyHost
      _ _ _ _ _ _ _ _ _ _ _ _ _ _ _ _ rfl rfl rfl rfl rfl rfl rfl rfl).2.1 _ _ rfl rfl,
   (Evaluate_verdict_by_tag failGuest toyCodec toyConfig [7] [toyUTxO 7 5] toyHost
      _ _ _ _ _ _ _ _ _ _ _ _ _ _ _ _ rfl rfl rfl rfl rfl rfl rfl rfl).2.2.1 _ _ _ rfl
      (by decide) rfl⟩

/-- C3, amended: when the input `i` of a transaction is absent from the resolved list,
`Evaluate` runs its loop over the inputs before `i` and stops at `i` with the
missing-UTxO error (or earlier, with the failure of an input before `i`); it makes no
guest call for `i` or any later input, never calls `eval_phase_two_raw`, never
returns a redeemer list, and when `i` is the first input it makes no guest call at all. -/
theorem Evaluate_missing_input {σ : Type} (G : Guest σ) (C : Codec) (config : EvaluatorConfig)
    (txBytes : Bytes) (utxos : List ApolloUTxO) (m : σ) (tx : Transaction)
    (before after : List TransactionInput) (i : TransactionInput)
    (hdec : C.decodeTx txBytes = some tx) (hin : tx.Inputs = before ++ i :: after)
    (habs : ∀ u ∈ utxos, u.Input ≠ i) :
    Evaluate G C config txBytes utxos ⟨m, []⟩
      = (match processInputs G C (buildUtxoMap utxos) before ⟨⟨m, []⟩, [], [], []⟩ with
         | .ok s => exitWith G (.err (.missingUTxO (utxoKey i))) s.deferred s.host
         | .error (o, s) => exitWith G o s.deferred s.host) ∧
    (∀ redeemers, (Evaluate G C config txBytes utxos ⟨m, []⟩).1 ≠ .ok redeemers) ∧
    (∀ e ∈ (Evaluate G C config txBytes utxos ⟨m, []⟩).2.trace, e.fn ≠ .evalPhaseTwoRaw) ∧
    (before = [] →
      Evaluate G C config txBytes utxos ⟨m, []⟩ = (.err (.missingUTxO (utxoKey i)), ⟨m, []⟩)) := by
  have hnone := get?_buildUtxoMap_absent utxos i habs
  have hl := processInputs_log G C (buildUtxoMap utxos) before ⟨⟨m, []⟩, [], [], []⟩
    (by intro e he; cases he) (by simp [Balanced, obtained, released])
  have heq : Evaluate G C config txBytes utxos ⟨m, []⟩
      = (match processInputs G C (buildUtxoMap utxos) before ⟨⟨m, []⟩, [], [], []⟩ with
         | .ok s => exitWith G (.err (.missingUTxO (utxoKey i))) s.deferred s.host
         | .error (o, s) => exitWith G o s.deferred s.host) := by
    unfold Evaluate
    simp only [hdec, hin]
    unfold processInputs
    rw [List.foldlM_append]
    cases hp : List.foldlM (processInput G C (buildUtxoMap utxos)) ⟨⟨m, []⟩, [], [], []⟩ before with
    | error os => rfl
    | ok s =>
      have hstep : processInput G C (buildUtxoMap utxos) s i
          = .error (.err (.missingUTxO (utxoKey i)), s) := by
        unfold processInput
        simp only [hnone]
      show (match (processInput G C (buildUtxoMap utxos) s i >>= fun init =>
          List.foldlM (processInput G C (buildUtxoMap utxos)) init after) with
        | Except.error (o, s) => exitWith G o s.deferred s.host
        | Except.ok s => evaluateTail G C config txBytes s) = _
      rw [hstep]
      rfl
  refine ⟨heq, ?_, ?_, ?_⟩
  · intro redeemers
    rw [heq]
    cases hp : processInputs G C (buildUtxoMap utxos) before ⟨⟨m, []⟩, [], [], []⟩ with
    | error os =>
      rw [hp] at hl
      simp only [exitWith_fst]
      intro ho
      have hx := hl.2
      rw [ho] at hx
      exact hx
    | ok s => simp [exitWith_fst]
  · rw [heq]
    cases hp : processInputs G C (buildUtxoMap utxos) before ⟨⟨m, []⟩, [], [], []⟩ with
    | error os =>
      rw [hp] at hl
      exact exitWith_noEval G _ _ _ hl.1
    | ok s =>
      rw [hp] at hl
      exact exitWith_noEval G _ _ _ hl.1
  · intro hb
    rw [heq, hb]
    rfl

theorem Evaluate_missing_input_witness :
    toyCodec.decodeTx [7, 9] = some ⟨[⟨[7], 0⟩, ⟨[9], 0⟩]⟩ ∧
    (∀ u ∈ [toyUTxO 7 5], u.Input ≠ ⟨[9], 0⟩) ∧
    (Evaluate toyGuest toyCodec toyConfig [7, 9] [toyUTxO 7 5] toyHost).1
      = .err (.missingUTxO "09:0") :=
  ⟨rfl, by decide,
   ((congrArg Prod.fst (Evaluate_missing_input toyGuest toyCodec toyConfig [7, 9] [toyUTxO 7 5]
      ⟨1, []⟩ ⟨[⟨[7], 0⟩, ⟨[9], 0⟩]⟩ [⟨[7], 0⟩] [] ⟨[9], 0⟩ rfl rfl (by decide)).1).trans
      (by decide))⟩

/-- C3 as stated fails: the second input is absent, `Evaluate` returns the missing-UTxO
error, and by then it has called `alloc`, `utxo_to_input_bytes`, `utxo_to_output_bytes`
and `dealloc` for the first input. -/
theorem Evaluate_missing_after_calls :
    (Evaluate toyGuest toyCodec toyConfig [7, 9] [toyUTxO 7 5] toyHost).1
      = .err (.missingUTxO "09:0") ∧
    (Evaluate toyGuest toyCodec toyConfig [7, 9] [toyUTxO 7 5] toyHost).2.trace
      = [⟨.alloc, [1], some [1]⟩,
         ⟨.utxoToInputBytes, [1, 1], some [12884901890]⟩,
         ⟨.dealloc, [3, 2], some []⟩,
         ⟨.utxoToOutputBytes, [1, 1], some [25769803778]⟩,
         ⟨.dealloc, [6, 2], some []⟩,
         ⟨.dealloc, [1, 1], some []⟩] := by
  decide

/-- C5, amended: `Evaluate` does not check the resolved list for duplicate keys.  In
its lookup table each key resolves to the last UTxO of the list that carries it, so
an entry that has a later duplicate has no effect on the run: leaving it out gives
the same result. -/
theorem Evaluate_duplicate_last_wins {σ : Type} (G : Guest σ) (C : Codec)
    (config : EvaluatorConfig) (txBytes : Bytes) (front rest : List ApolloUTxO)
    (u : ApolloUTxO) (h : Host σ)
    (hdup : ∃ later ∈ rest, utxoKey later.Input = utxoKey u.Input) :
    (∀ k, (buildUtxoMap (front ++ u :: rest)).get? k
      = (front ++ u :: rest).reverse.find? (fun x => decide (utxoKey x.Input = k))) ∧
    Evaluate G C config txBytes (front ++ u :: rest) h
      = Evaluate G C config txBytes (front ++ rest) h := by
  refine ⟨fun k => get?_buildUtxoMap_last _ k, ?_⟩
  apply Evaluate_congr
  intro tx _ i _
  rw [get?_buildUtxoMap_last, get?_buildUtxoMap_last]
  simp only [List.reverse_append, List.reverse_cons, List.append_assoc, List.find?_append,
    List.find?_cons, List.find?_nil]
  by_cases hk : utxoKey u.Input = utxoKey i
  · obtain ⟨later, hmem, hlk⟩ := hdup
    have hsome : (rest.reverse.find? (fun x => decide (utxoKey x.Input = utxoKey i))).isSome := by
      rw [List.find?_isSome]
      exact ⟨later, List.mem_reverse.mpr hmem, by simp [hlk, hk]⟩
    obtain ⟨v, hv⟩ := Option.isSome_iff_exists.mp hsome
    simp [hv]
  · simp [hk]

theorem Evaluate_duplicate_last_wins_witness :
    (∃ later ∈ [toyUTxO 7 6], utxoKey later.Input = utxoKey (toyUTxO 7 5).Input) ∧
    Evaluate toyGuest toyCodec toyConfig [7] ([] ++ toyUTxO 7 5 :: [toyUTxO 7 6]) toyHost
      = Evaluate toyGuest toyCodec toyConfig [7] ([] ++ [toyUTxO 7 6]) toyHost :=
  ⟨⟨toyUTxO 7 6, by decide, by decide⟩,
   (Evaluate_duplicate_last_wins toyGuest toyCodec toyConfig [7] [] [toyUTxO 7 6] (toyUTxO 7 5)
      toyHost ⟨toyUTxO 7 6, by decide, by decide⟩).2⟩

/-- C5 as stated fails: two resolved UTxOs share the key `07:0`; `Evaluate` succeeds,
and the frame it evaluated holds the records of the second one (coin 6), not the first. -/
theorem Evaluate_accepts_duplicate :
    utxoKey (toyUTxO 7 5).Input = utxoKey (toyUTxO 7 6).Input ∧
    (Evaluate toyGuest toyCodec toyConfig [7] [toyUTxO 7 5, toyUTxO 7 6] toyHost).1
      = .ok [[1, 0, 0, 0, 0, 0, 0, 0, 2, 0, 0, 0, 0, 0, 0, 0, 1, 6,
              2, 0, 0, 0, 0, 0, 0, 0, 2, 6]] := by
  decide

/-- C7: for a resolved list without duplicate keys that holds a UTxO for every input,
each input resolves to the UTxO with its hash and index; the loop of `Evaluate`
encodes exactly those UTxOs in input order, each step appending the input record and
the output record the guest returned for that UTxO, so that a completed loop leaves
one input record and one output record per input; the frame `Evaluate` then writes
to the guest and passes to `eval_phase_two_raw` is the count `N` followed by these
`N` groups in input order; a second such list in which every input has the same
UTxO, whatever its order and its other entries, gives the same run; and the record
encoded for a UTxO carries that UTxO's own hash, index, address and asset ledger. -/
theorem Evaluate_frame_follows_inputs {σ : Type} (G : Guest σ) (C : Codec)
    (config : EvaluatorConfig) (txBytes : Bytes) (tx : Transaction)
    (utxos utxos2 : List ApolloUTxO) (h : Host σ) (s : LoopState σ)
    (txPtr txLen utxosPtr utxosLen costModelsPtr costModelsLen r : Nat) (rest : List Nat)
    (h1 h2 h3 h4 : Host σ)
    (hdec : C.decodeTx txBytes = some tx)
    (hnd : (utxos.map (fun u => u.Input)).Nodup)
    (hall : ∀ i ∈ tx.Inputs, i ∈ utxos.map (fun u => u.Input))
    (hnd2 : (utxos2.map (fun u => u.Input)).Nodup)
    (hsame : ∀ i ∈ tx.Inputs, utxos2.find? (fun u => decide (u.Input = i))
      = utxos.find? (fun u => decide (u.Input = i)))
    (hloop : (tx.Inputs.filterMap (fun i => utxos.find? (fun u => decide (u.Input = i)))).foldlM
      (encodeUTxO G C) ⟨h, [], [], []⟩ = .ok s)
    (hw1 : writeToMemory G s.host txBytes = (.done txPtr txLen, h1))
    (hw2 : writeToMemory G h1
      (putUint64LE tx.Inputs.length
        ++ ((s.inputBytes.zip s.outputBytes).map (fun p =>
              putUint64LE p.1.length ++ p.1 ++ putUint64LE p.2.length ++ p.2)).flatten)
      = (.done utxosPtr utxosLen, h2))
    (hw3 : writeToMemory G h2 config.CostModels = (.done costModelsPtr costModelsLen, h3))
    (hcall : guestCall G .evalPhaseTwoRaw
      [txPtr, txLen, utxosPtr, utxosLen, costModelsPtr, costModelsLen,
       config.MaxTxExSteps, config.MaxTxExMem,
       config.ZeroTime, config.ZeroSlot, config.SlotLength] h3 = (some (r :: rest), h4)) :
    (∀ i ∈ tx.Inputs, ∃ u ∈ utxos, u.Input = i ∧
      (buildUtxoMap utxos).get? (utxoKey i) = some u) ∧
    processInputs G C (buildUtxoMap utxos) tx.Inputs ⟨h, [], [], []⟩
      = (tx.Inputs.filterMap (fun i => utxos.find? (fun u => decide (u.Input = i)))).foldlM
          (encodeUTxO G C) ⟨h, [], [], []⟩ ∧
    (tx.Inputs.filterMap (fun i => utxos.find? (fun u => decide (u.Input = i)))).map
      (fun u => u.Input) = tx.Inputs ∧
    (∀ (s1 s2 : LoopState σ) (u : ApolloUTxO), encodeUTxO G C s1 u = .ok s2 →
      ∃ utxoCbor utxoPtr utxoLen g1 g2 inputUtxoBytes outputUtxoBytes,
        C.marshalUTxO (prepareUTxO u (prepareAssetMap u)) = some utxoCbor ∧
        writeToMemory G s1.host utxoCbor = (.done utxoPtr utxoLen, g1) ∧
        callFunction G .utxoToInputBytes [utxoPtr, utxoLen] g1 = (.ok inputUtxoBytes, g2) ∧
        callFunction G .utxoToOutputBytes [utxoPtr, utxoLen] g2
          = (.ok outputUtxoBytes, s2.host) ∧
        s2.inputBytes = s1.inputBytes ++ [inputUtxoBytes] ∧
        s2.outputBytes = s1.outputBytes ++ [outputUtxoBytes]) ∧
    s.inputBytes.length = tx.Inputs.length ∧
    s.outputBytes.length = tx.Inputs.length ∧
    serializeUTxOs s.inputBytes s.outputBytes
      = some (putUint64LE tx.Inputs.length
          ++ ((s.inputBytes.zip s.outputBytes).map (fun p =>
                putUint64LE p.1.length ++ p.1 ++ putUint64LE p.2.length ++ p.2)).flatten) ∧
    Evaluate G C config txBytes utxos h
      = readVerdict G C
          ((costModelsPtr, costModelsLen) :: (utxosPtr, utxosLen) :: (txPtr, txLen) :: s.deferred)
          r h4 ∧
    Evaluate G C config txBytes utxos2 h = Evaluate G C config txBytes utxos h ∧
    (∀ (u : ApolloUTxO) (assetMap : GoMap String Nat),
      (prepareUTxO u assetMap).TxHash = hexEncode u.Input.TransactionId ∧
      (prepareUTxO u assetMap).OutputIndex = toUint64 u.Input.Index ∧
      (prepareUTxO u assetMap).Address = u.Output.Address ∧
      (prepareUTxO u assetMap).Assets = assetMap) := by
  have hfind : ∀ i ∈ tx.Inputs, ∃ u ∈ utxos, u.Input = i ∧
      utxos.find? (fun u => decide (u.Input = i)) = some u := by
    intro i hi
    obtain ⟨u0, hu0, hu0i⟩ := List.mem_map.mp (hall i hi)
    have hsome : (utxos.find? (fun u => decide (u.Input = i))).isSome := by
      rw [List.find?_isSome]
      exact ⟨u0, hu0, by simpa using hu0i⟩
    obtain ⟨u, hu⟩ := Option.isSome_iff_exists.mp hsome
    have hp := List.find?_some hu
    exact ⟨u, List.mem_of_find?_eq_some hu, by simpa using hp, hu⟩
  have hmatched := processInputs_matched G C utxos hnd tx.Inputs ⟨h, [], [], []⟩ hall
  have hproc : processInputs G C (buildUtxoMap utxos) tx.Inputs ⟨h, [], [], []⟩ = .ok s := by
    rw [hmatched]; exact hloop
  have hlen := processInputs_lengths G C (buildUtxoMap utxos) tx.Inputs _ s hproc
  have hl1 : s.inputBytes.length = tx.Inputs.length := by simpa using hlen.1
  have hl2 : s.outputBytes.length = tx.Inputs.length := by simpa using hlen.2
  have hframe : serializeUTxOs s.inputBytes s.outputBytes
      = some (putUint64LE tx.Inputs.length
          ++ ((s.inputBytes.zip s.outputBytes).map (fun p =>
                putUint64LE p.1.length ++ p.1 ++ putUint64LE p.2.length ++ p.2)).flatten) := by
    rw [serializeUTxOs_eq_frameSpec _ _ (hl1.trans hl2.symm)]
    unfold frameSpec
    rw [hl1]
    rfl
  refine ⟨?_, hmatched, ?_, fun s1 s2 u hs => encodeUTxO_ok G C s1 s2 u hs, hl1, hl2, hframe,
    ?_, ?_, fun u assetMap => ⟨rfl, rfl, rfl, rfl⟩⟩
  · intro i hi
    obtain ⟨u, hu, hui, hf⟩ := hfind i hi
    exact ⟨u, hu, hui, by rw [get?_buildUtxoMap_nodup utxos i hnd, hf]⟩
  · have hgen : ∀ (l : List TransactionInput), (∀ i ∈ l, i ∈ tx.Inputs) →
        (l.filterMap (fun i => utxos.find? (fun u => decide (u.Input = i)))).map
          (fun u => u.Input) = l := by
      intro l
      induction l with
      | nil => intro _; rfl
      | cons i l ih =>
        intro hl
        obtain ⟨u, _, hui, hf⟩ := hfind i (hl i (List.mem_cons_self _ _))
        rw [List.filterMap_cons, hf]
        simp only [List.map_cons, hui]
        rw [ih (fun j hj => hl j (List.mem_cons_of_mem _ hj))]
    exact hgen tx.Inputs (fun i hi => hi)
  · rw [Evaluate_reaches G C config txBytes utxos h tx s hdec hproc]
    exact evaluateTail_reaches G C config txBytes s _ txPtr txLen utxosPtr utxosLen
      costModelsPtr costModelsLen r rest h1 h2 h3 h4 hframe hw1 hw2 hw3 hcall
  · apply Evaluate_congr
    intro tx2 hdec2 i hi
    have htx : tx2 = tx := by
      rw [hdec] at hdec2
      exact (Option.some.inj hdec2).symm
    rw [htx] at hi
    rw [get?_buildUtxoMap_nodup utxos2 i hnd2, get?_buildUtxoMap_nodup utxos i hnd, hsame i hi]

theorem Evaluate_frame_follows_inputs_witness :
    toyCodec.decodeTx [7, 9] = some ⟨[⟨[7], 0⟩, ⟨[9], 0⟩]⟩ ∧
    (Evaluate toyGuest toyCodec toyConfig [7, 9] [toyUTxO 7 5, toyUTxO 9 6] toyHost).1
      = .ok [[2, 0, 0, 0, 0, 0, 0, 0,
              2, 0, 0, 0, 0, 0, 0, 0, 1, 5, 2, 0, 0, 0, 0, 0, 0, 0, 2, 5,
              2, 0, 0, 0, 0, 0, 0, 0, 1, 6, 2, 0, 0, 0, 0, 0, 0, 0, 2, 6]] ∧
    Evaluate toyGuest toyCodec toyConfig [7, 9] [toyUTxO 9 6, toyUTxO 3 1, toyUTxO 7 5] toyHost
      = Evaluate toyGuest toyCodec toyConfig [7, 9] [toyUTxO 7 5, toyUTxO 9 6] toyHost :=
  ⟨rfl,
   (congrArg Prod.fst
      (Evaluate_frame_follows_inputs toyGuest toyCodec toyConfig [7, 9]
        ⟨[⟨[7], 0⟩, ⟨[9], 0⟩]⟩ [toyUTxO 7 5, toyUTxO 9 6]
        [toyUTxO 9 6, toyUTxO 3 1, toyUTxO 7 5] toyHost
        _ _ _ _ _ _ _ _ _ _ _ _ _ rfl (by decide) (by decide) (by decide) (by decide)
        rfl rfl rfl rfl rfl).2.2.2.2.2.2.2.1).trans (by decide),
   (Evaluate_frame_follows_inputs toyGuest toyCodec toyConfig [7, 9] ⟨[⟨[7], 0⟩, ⟨[9], 0⟩]⟩
      [toyUTxO 7 5, toyUTxO 9 6] [toyUTxO 9 6, toyUTxO 3 1, toyUTxO 7 5] toyHost
      _ _ _ _ _ _ _ _ _ _ _ _ _ rfl (by decide) (by decide) (by decide) (by decide)
      rfl rfl rfl rfl rfl).2.2.2.2.2.2.2.2.1⟩

end Aureum
